import Mathlib

/-!
go-csgo-item-parser: the key-value text parser (`parser/parser.go`)

A shallow embedding of `getLineType`, `parseDataLine`, `isWhitespace`, the line
loop of `Parse`, `isUTF16` and the choice of the line source in `Parse`, and of
`getItemPaintkitFromIconPath` (`csgo/icons.go`), followed by theorems about
them.

Modelling conventions
* A Go string that holds valid UTF-8 text is the list of its characters
  (`Str`).  Go's `for i, c := range line` visits exactly these characters; the
  byte tests `line[i-1] != '\\'` and `line[i+1] == '/'` compare against ASCII
  bytes, which in valid UTF-8 occur only as whole characters, so they are tests
  on the previous and on the next character.
* The input of `Parse` is the list of the physical lines of the (UTF-8) text:
  the pieces between its line feeds.  The loop `steps` includes what the
  scanner does with a line: a line of `bufio.MaxScanTokenSize` bytes or more
  ends the loop, as the end of the input does; the text of any other line is
  the line without a carriage return at its end.  `feed` is the loop body
  repeated over texts already delivered; it serves the proofs.
* Go maps are reference values.  The maps created by `make` live in a heap
  (`Heap`), addressed by their creation order; address `0` is `dataTree`.  An
  `interface{}` stored in a map or on the stack is a string or a map reference
  (`Val`).  A Go map itself is an association list with unique keys.
* A run-time panic (failed type assertion, index out of range) is the outcome
  `Outcome.panic`.
* An opened file is its bytes (numbers below 256) with a read position
  (`File`).  `ParseFile` is `Parse` from the opened file on; the UTF-16 decoder
  of `golang.org/x/text` that `convertFileToUTF8` calls is modelled by its
  decoding loop on the whole input.
-/

namespace CsgoParser

/-- A Go string of valid UTF-8 text, as its characters. -/
abbrev Str := List Char

/-- The `token` enumeration of parser.go (`section` is written `section_`). -/
inductive Token where
  | unknown
  | root
  | section_
  | opener
  | closer
  | data
  | openData
  | empty
  deriving DecidableEq, Repr

/-- The constant `whitespaceCutset = " \t"`. -/
def whitespaceCutset : List Char := [' ', '\t']

/-- The table `language`: for a previous token, the tokens that may follow it.
Tokens without an entry (`unknown`, `empty`) have no successor. -/
def language : Token → List Token
  | .root => [.section_]
  | .section_ => [.opener]
  | .opener => [.section_, .data, .openData, .closer]
  | .closer => [.section_, .data, .openData, .closer]
  | .data => [.section_, .data, .openData, .closer]
  | .openData => [.data, .openData]
  | .unknown => []
  | .empty => []

/-- Go's `len(s)` for a string: the number of bytes of its UTF-8 encoding. -/
def len (s : Str) : Nat := (s.map Char.utf8Size).sum

/-- Go's `strings.Trim(s, cutset)`: drop the leading and the trailing characters
that belong to `cutset`. -/
def Trim (s : Str) (cutset : List Char) : Str :=
  (s.dropWhile (fun c => cutset.contains c)).rdropWhile (fun c => cutset.contains c)

/-- Go's `strings.HasPrefix(line, "//")`. -/
def hasCommentStart : Str → Bool
  | '/' :: '/' :: _ => true
  | _ => false

/-- The class `\s` of Go's regexp package: `[\t\n\f\r ]`. -/
def isRegexpSpace (c : Char) : Bool :=
  c == '\t' || c == '\n' || c == '\x0c' || c == '\r' || c == ' '

/-- The function `isWhitespace`: does the whole line match
`^(|\s|\n|\xEF\xBB\xBF)*$`?  Go's regexp matches code points, and in its syntax
`\xEF` is the code point U+00EF, so the third alternative is the three
characters U+00EF U+00BB U+00BF.  The alternatives start with different
characters, so the match is decided left to right. -/
def isWhitespace : Str → Bool
  | [] => true
  | '\xEF' :: '\xBB' :: '\xBF' :: rest => isWhitespace rest
  | c :: rest => isRegexpSpace c && isWhitespace rest

/-- The loop of `parseDataLine`, started at some character of the line.
`prev` is the character before the current one (`none` when `i == 0`),
`subStrings`, `currentString` and `quoted` are the loop variables. -/
def parseDataLineLoop (prev : Option Char) (subStrings : List Str) (currentString : Str)
    (quoted : Bool) : Str → List Str × Bool
  | [] => (subStrings, quoted)
  | c :: rest =>
    -- break if string is comment: `!quoted && c == '/'`, `i < len(line)-1`, `line[i+1] == '/'`
    if !quoted && c == '/' && rest.head? == some '/' then
      (subStrings, quoted)
    -- a quote mark that is not escaped: `i == 0 || line[i-1] != '\\'`
    else if c == '"' && prev != some '\\' then
      if quoted then
        parseDataLineLoop (some c) (subStrings ++ [currentString]) [] (!quoted) rest
      else
        parseDataLineLoop (some c) subStrings currentString (!quoted) rest
    -- ignore anything outside of quotes
    else if !quoted then
      parseDataLineLoop (some c) subStrings currentString quoted rest
    else
      parseDataLineLoop (some c) subStrings (currentString ++ [c]) quoted rest

/-- The function `parseDataLine`: the string sub-elements of a line and whether
the line is open ended. -/
def parseDataLine (line : Str) : List Str × Bool :=
  parseDataLineLoop none [] [] false line

/-- The function `getLineType`: token, extracted strings, error
(`none` is Go's `nil` error). -/
def getLineType (line0 : Str) : Token × List Str × Option String :=
  let line := Trim line0 whitespaceCutset
  if len line == 0 || hasCommentStart line || isWhitespace line then
    (.empty, [], none)
  else if len line == 1 && line == ['{'] then
    (.opener, [], none)
  else if len line == 1 && line == ['}'] then
    (.closer, [], none)
  else
    let (split, isOpen) := parseDataLine line
    if isOpen then (.openData, [], none)
    else if split.length == 1 then (.section_, split, none)
    else if split.length == 2 then (.data, split, none)
    else (.unknown, [], some "unrecognised line type")

/-- An `interface{}` value held in a map or on the stack of open sections. -/
inductive Val where
  | str (s : Str)
  | map (addr : Nat)
  deriving DecidableEq, Repr

/-- A `map[string]interface{}` value: keys are unique. -/
abbrev GoMap := List (Str × Val)

/-- Map lookup `m[k]` with the comma-ok form: `none` when the key is absent. -/
def GoMap.get : GoMap → Str → Option Val
  | [], _ => none
  | (k1, v1) :: rest, k => if k1 = k then some v1 else GoMap.get rest k

/-- Map assignment `m[k] = v`. -/
def GoMap.put : GoMap → Str → Val → GoMap
  | [], k, v => [(k, v)]
  | (k1, v1) :: rest, k, v => if k1 = k then (k, v) :: rest else (k1, v1) :: GoMap.put rest k v

/-- The maps allocated so far; the address of a map is its index. -/
abbrev Heap := List GoMap

/-- Assignment `m[k] = v` through the reference `a`. -/
def Heap.store (h : Heap) (a : Nat) (k : Str) (v : Val) : Heap :=
  match h[a]? with
  | some m => h.set a (m.put k v)
  | none => h

/-- The errors `Parse` returns from its line loop. -/
inductive ParseError where
  /-- Message "unable to parse line %d with error: %s". -/
  | unableToParse (line : Nat) (msg : String)
  /-- Message "unexpected token on line %d". -/
  | unexpectedTokenOnLine (line : Nat)
  /-- Message "unexpected token", from `errors.New`. -/
  | unexpectedToken
  deriving DecidableEq, Repr

/-- How a call of `Parse` ends: it returns `dataTree` (the heap, root at address
0) with a nil error, returns a nil map with an error, or panics. -/
inductive Outcome where
  | ok (tree : Heap)
  | error (e : ParseError)
  | panic
  deriving DecidableEq, Repr

/-- The variables of `Parse` that live across loop iterations. -/
structure State where
  heap : Heap
  openSections : List Val
  lastToken : Token
  lineCount : Nat
  currentLine : Str
  deriving DecidableEq, Repr

/-- One loop iteration either continues with a new state or leaves `Parse`. -/
inductive Step where
  | next (st : State)
  | done (o : Outcome)
  deriving DecidableEq, Repr

/-- The state before the first line: `dataTree` is the empty map at address 0
and is the only frame on `openSections`; `lastToken` is `root`. -/
def initState : State :=
  { heap := [[]], openSections := [.map 0], lastToken := .root, lineCount := 0,
    currentLine := [] }

/-- The `switch t` of the loop body, after `lastToken = t`. `st` already holds the
new `lastToken`, `lineCount` and `currentLine`.  `Peek` on an empty stack gives
nil, and the assertion `.(map[string]interface{})` panics on nil and on a
string. -/
def dispatch (st : State) (t : Token) (lineData : List Str) : Step :=
  match t with
  | .section_ =>
    match st.openSections.head? with
    | some (.map a) =>
      match st.heap[a]? with
      | none => .done .panic
      | some currentSection =>
        match lineData with
        | [] => .done .panic
        | subsection :: _ =>
          match currentSection.get subsection with
          | some m => .next { st with openSections := m :: st.openSections }
          | none =>
            let c := st.heap.length
            .next { st with
              heap := st.heap.store a subsection (.map c) ++ [[]]
              openSections := .map c :: st.openSections }
    | _ => .done .panic
  | .closer =>
    if st.openSections.length == 0 then .done (.error .unexpectedToken)
    else .next { st with openSections := st.openSections.tail }
  | .data =>
    match st.openSections.head? with
    | some (.map a) =>
      match st.heap[a]? with
      | none => .done .panic
      | some _ =>
        match lineData with
        | key :: value :: _ => .next { st with heap := st.heap.store a key (.str value) }
        | _ => .done .panic
    | _ => .done .panic
  | _ => .next st

/-- One iteration of the loop `for s.Scan()` on the physical line `text`. -/
def step (st : State) (text : Str) : Step :=
  let lineCount := st.lineCount + 1
  let currentLine := if st.lastToken = .openData then st.currentLine ++ text else text
  match getLineType currentLine with
  | (_, _, some msg) => .done (.error (.unableToParse lineCount msg))
  | (t, lineData, none) =>
    if t = .empty then
      .next { st with lineCount := lineCount, currentLine := [] }
    else if t ∉ language st.lastToken then
      .done (.error (.unexpectedTokenOnLine lineCount))
    else
      dispatch { st with lineCount := lineCount, currentLine := currentLine, lastToken := t }
        t lineData

/-- The loop body repeated over texts that the scanner has delivered (`s.Text()`
after successive successful calls of `s.Scan()`), in order. -/
def feed (st : State) : List Str → Step
  | [] => .next st
  | text :: rest =>
    match step st text with
    | .next st1 => feed st1 rest
    | .done o => .done o

/-- The constant `bufio.MaxScanTokenSize`, 64 * 1024: the size up to which the
buffer of a scanner made by `bufio.NewScanner` grows. -/
def maxScanTokenSize : Nat := 65536

/-- The function `dropCR` of `bufio`: the data without one carriage return at
its end. -/
def dropCR (data : Str) : Str :=
  if data.getLast? = some '\r' then data.dropLast else data

/-- The loop `for s.Scan()` of `Parse` over the physical lines that are left in
the input.  A physical line is the text up to the next line feed, or up to the
end of the input, without the line feed.  With the split function
`bufio.ScanLines`, `s.Scan()` needs the line and its line feed in the buffer,
which grows to `maxScanTokenSize` bytes; for a line of that many bytes or more
it returns false (the scanner's error is then `ErrTooLong`), as it does at the
end of the input.  `Parse` reads `s.Err()` only inside the loop body, after a
successful scan, where it is nil, and not after the loop; so when the loop ends,
in either way, `Parse` returns `dataTree, nil`.  The text of a scanned line is
the line without a carriage return at its end. -/
def steps (st : State) : List Str → Step
  | [] => .next st
  | line :: rest =>
    if maxScanTokenSize ≤ len line then .done (.ok st.heap)
    else
      match step st (dropCR line) with
      | .next st1 => steps st1 rest
      | .done o => .done o

/-- The function `Parse`, on the physical lines of the input (already UTF-8):
when the loop ends it returns `dataTree, nil`. -/
def Parse (lines : List Str) : Outcome :=
  match steps initState lines with
  | .next st => .ok st.heap
  | .done o => o

/-- The parsed document as a value: a section (key to child) or a string leaf. -/
inductive Node where
  | value (s : Str)
  | section_ (entries : List (Str × Node))

/-- All of a list of optional results, if none is missing. -/
def allSome {α : Type} : List (Option α) → Option (List α)
  | [] => some []
  | none :: _ => none
  | some x :: rest => (allSome rest).map (fun xs => x :: xs)

/-- The value `v` of heap `h` read as a tree, following at most `fuel` nested
map references. -/
def reify (h : Heap) : Nat → Val → Option Node
  | _, .str s => some (.value s)
  | 0, .map _ => none
  | fuel + 1, .map a =>
    match h[a]? with
    | none => none
    | some m =>
      (allSome (m.map (fun e => (reify h fuel e.2).map (fun n => (e.1, n))))).map Node.section_

/-- The tree that `Parse` returned: the heap read from `dataTree`. A tree built
by `Parse` nests less deep than the number of maps allocated. -/
def toTree (h : Heap) : Option Node := reify h h.length (.map 0)

/-- The line consisting of the quoted name: a section header. -/
def headerLine (n : Str) : Str := '"' :: (n ++ ['"'])

/-- The line with quoted key, one space, quoted value. -/
def pairLine (k v : Str) : Str := '"' :: (k ++ '"' :: ' ' :: '"' :: (v ++ ['"']))

/-- The line with quoted key, one space, and a value whose string is left open. -/
def openPairLine (k v1 : Str) : Str := '"' :: (k ++ '"' :: ' ' :: '"' :: v1)

/-- The line of C4: quote, a, backslash, quote, b, quote. -/
def escapedQuoteLine : Str := ['"', 'a', '\\', '"', 'b', '"']

/-- The string contains neither a double quote nor a backslash. -/
def Plain (s : Str) : Prop := '"' ∉ s ∧ '\\' ∉ s

instance (s : Str) : Decidable (Plain s) := inferInstanceAs (Decidable (_ ∧ _))

/-- An input with one token per physical line, as a list of items: a data pair,
or a section with its body, each followed by the remaining items. -/
inductive Doc where
  | nil
  | pair (k v : Str) (rest : Doc)
  | sec (name : Str) (body : Doc) (rest : Doc)

/-- The items of `d` followed by the items of `e`. -/
def Doc.append : Doc → Doc → Doc
  | .nil, e => e
  | .pair k v rest, e => .pair k v (rest.append e)
  | .sec n body rest, e => .sec n body (rest.append e)

/-- What a physical line holds for the tree builder when it is one token by
itself. -/
inductive Tok where
  | header (n : Str)
  | opener
  | closer
  | pair (k v : Str)
  deriving DecidableEq, Repr

/-- The token of a physical line that the scanner delivers: `some none` for an
Empty line, `some (some t)` for a line that is one token by itself, and `none`
for a line of 65536 bytes or more, a line that leaves a string open and a line
that the classifier rejects. -/
def tokenOf (line : Str) : Option (Option Tok) :=
  if maxScanTokenSize ≤ len line then none
  else
    match getLineType (dropCR line) with
    | (.empty, [], none) => some none
    | (.opener, [], none) => some (some .opener)
    | (.closer, [], none) => some (some .closer)
    | (.section_, [n], none) => some (some (.header n))
    | (.data, [k, v], none) => some (some (.pair k v))
    | _ => none

/-- The tokens of an input with one token per physical line, Empty lines left
out; `none` when some line is not such a line. -/
def tokens : List Str → Option (List Tok)
  | [] => some []
  | l :: ls =>
    match tokenOf l with
    | none => none
    | some none => tokens ls
    | some (some t) => (tokens ls).map (fun ts => t :: ts)

/-- The tokens of a document: a data pair; a header, an Opener, the body and a
Closer for a section. -/
def Doc.toks : Doc → List Tok
  | .nil => []
  | .pair k v rest => .pair k v :: rest.toks
  | .sec n body rest => .header n :: .opener :: (body.toks ++ .closer :: rest.toks)

/-- The document begins with a section, as the grammar demands after Root. -/
def Doc.startsWithSec : Doc → Prop
  | .sec _ _ _ => True
  | _ => False

/-- A place for a list of sibling items inside a document: for every enclosing
section, outermost first, the items before it, its name and the items after
it. -/
abbrev Ctx := List (Doc × Str × Doc)

/-- The names of the enclosing sections, outermost first. -/
def Ctx.path (ctx : Ctx) : List Str := ctx.map (fun f => f.2.1)

/-- The heap after the items of a document have been written into the map at
`a`, one after the other: a pair is assigned; a section is written into the map
already stored under its name, or into a new empty map stored under it.
Undefined where a section name holds a string. -/
def build : Doc → Heap → Nat → Option Heap
  | .nil, h, _ => some h
  | .pair k v rest, h, a =>
    match h[a]? with
    | none => none
    | some m => build rest (h.set a (m.put k (.str v))) a
  | .sec n body rest, h, a =>
    match h[a]? with
    | none => none
    | some m =>
      match m.get n with
      | some (.map c) => (build body h c).bind (fun h1 => build rest h1 a)
      | some (.str _) => none
      | none =>
        (build body (h.set a (m.put n (.map h.length)) ++ [[]]) h.length).bind
          (fun h1 => build rest h1 a)

/-- For every map of the heap, in allocation order, the names of the sections
on the way from the root to it. -/
abbrev Paths := List (List Str)

/-- Every string leaf of the heap is stored where `S` has a data pair, every map
reference where `T` has a section, and the referenced map is the one of that
section.  `P` gives the place of each map. -/
def HeapOK (S T : List (List Str × Str)) (P : Paths) (h : Heap) : Prop :=
  P.length = h.length ∧
  ∀ (a : Nat) (m : GoMap) (p : List Str) (k : Str), h[a]? = some m → P[a]? = some p →
    (∀ s, m.get k = some (.str s) → (p, k) ∈ S) ∧
    (∀ c, m.get k = some (.map c) → (p, k) ∈ T ∧ P[c]? = some (p ++ [k]))

/-- From heap `h` to heap `h1` every map is kept at its place, no map loses a
key, and every map reference is kept. -/
def Grows (P P1 : Paths) (h h1 : Heap) : Prop :=
  h.length ≤ h1.length ∧ (∀ (a : Nat) (p : List Str), P[a]? = some p → P1[a]? = some p) ∧
  ∀ (a : Nat) (m : GoMap), h[a]? = some m → ∃ m1, h1[a]? = some m1 ∧
    (∀ k, m.get k ≠ none → m1.get k ≠ none) ∧
    (∀ k c, m.get k = some (.map c) → m1.get k = some (.map c))

/-- No map of the heap holds a key twice. -/
def KeysUnique (h : Heap) : Prop :=
  ∀ (a : Nat) (m : GoMap), h[a]? = some m → (m.map Prod.fst).Nodup

/-- The number of double quotes of a text that are not immediately preceded by
a backslash; `prev` is the character before the text. -/
def unescapedQuotes (prev : Option Char) : Str → Nat
  | [] => 0
  | c :: rest =>
    (if c == '"' && prev != some '\\' then 1 else 0) + unescapedQuotes (some c) rest

/-- The part of a text up to the first `//` that stands outside a quoted string;
`quoted` tells whether the text starts inside a string. -/
def scannedPart (prev : Option Char) (quoted : Bool) : Str → Str
  | [] => []
  | c :: rest =>
    if !quoted && c == '/' && rest.head? == some '/' then []
    else
      c :: scannedPart (some c) (if c == '"' && prev != some '\\' then !quoted else quoted) rest

/-- The text contains `//` somewhere. -/
def containsComment : Str → Bool
  | [] => false
  | c :: rest => (c == '/' && rest.head? == some '/') || containsComment rest

/-- The line of the counterexample to C16: `"a" // "`. -/
def quoteInComment : Str := "\"a\" // \"".toList

/-- The error without its line number. -/
def ParseError.eraseLine : ParseError → ParseError
  | .unableToParse _ msg => .unableToParse 0 msg
  | .unexpectedTokenOnLine _ => .unexpectedTokenOnLine 0
  | .unexpectedToken => .unexpectedToken

/-- The outcome with the line number of its error, if any, erased. -/
def Outcome.eraseLine : Outcome → Outcome
  | .ok h => .ok h
  | .error e => .error e.eraseLine
  | .panic => .panic

/-- The state without what only numbers the lines: the line counter, and the
text of `currentLine` when no continuation is pending (it is then overwritten
before it is read). -/
def State.core (st : State) : State :=
  { st with lineCount := 0,
            currentLine := if st.lastToken = .openData then st.currentLine else [] }

/-- The result of an iteration, with line numbers erased. -/
def Step.core : Step → Step
  | .next st => .next st.core
  | .done o => .done o.eraseLine

/-- What `Parse` returns when its loop ends: the tree after the last line, or the
outcome with which the loop was left. -/
def Step.outcome : Step → Outcome
  | .next st => .ok st.heap
  | .done o => o

/-! ### Files and encodings -/

/-- An open `*os.File`: the bytes of the file, the read position, and whether
reading it fails with an I/O error. -/
structure File where
  bytes : List Nat
  pos : Nat
  broken : Bool
  deriving DecidableEq, Repr

/-- The error of a read: `io.EOF`, or another I/O error. -/
inductive ReadError where
  | eof
  | io
  deriving DecidableEq, Repr

/-- The call `file.Read(buf)` with a buffer of `n > 0` bytes: the bytes read, the
error and the file afterwards.  At the end of the file it reads nothing and
returns `io.EOF`; otherwise it reads the bytes that are there, at most `n`. -/
def File.Read (f : File) (n : Nat) : List Nat × Option ReadError × File :=
  if f.broken then ([], some .io, f)
  else if ((f.bytes.drop f.pos).take n).length = 0 then ([], some .eof, f)
  else ((f.bytes.drop f.pos).take n, none,
    { f with pos := f.pos + ((f.bytes.drop f.pos).take n).length })

/-- The function `resetFileStart`: `file.Seek(0, io.SeekStart)` (a seek on an
open file is taken to succeed). -/
def resetFileStart (f : File) : File := { f with pos := 0 }

/-- The function `isUTF16`: the answer, the error and the file afterwards.  The
buffer of three bytes starts as zeros.  The `defer resetFileStart(file)` of the
error branch, and the one after the two UTF-8 checks, run when the function
returns; the returns of the UTF-8 checks come before the second `defer`. -/
def isUTF16 (f : File) : Bool × Option ReadError × File :=
  match f.Read 3 with
  | (_, some err, f1) =>
    if err = .eof then (false, none, resetFileStart f1)
    else (false, some err, resetFileStart f1)
  | (got, none, f1) =>
    let buf := got ++ List.replicate (3 - got.length) 0
    if buf.getD 0 0 = 0xef ∧ buf.getD 1 0 = 0xbb ∧ buf.getD 2 0 = 0xbf then (false, none, f1)
    else if buf.getD 0 0 = 239 ∧ buf.getD 1 0 = 187 ∧ buf.getD 2 0 = 191 then (false, none, f1)
    else if buf.getD 0 0 = 0xff ∧ buf.getD 1 0 = 0xfe then (true, none, resetFileStart f1)
    else if buf.getD 0 0 = 0xfe ∧ buf.getD 1 0 = 0xff then (true, none, resetFileStart f1)
    else (false, none, resetFileStart f1)

/-- The file of the counterexample to C14: the UTF-8 byte-order mark and `"a"`. -/
def utf8BomFile : File := { bytes := [0xef, 0xbb, 0xbf, 0x22, 0x61, 0x22], pos := 0, broken := false }

/-- The UTF-8 encoding of a character, as byte values. -/
def utf8EncodeChar (c : Char) : List Nat :=
  if c.val.toNat < 0x80 then [c.val.toNat]
  else if c.val.toNat < 0x800 then [0xc0 + c.val.toNat / 64, 0x80 + c.val.toNat % 64]
  else if c.val.toNat < 0x10000 then
    [0xe0 + c.val.toNat / 4096, 0x80 + c.val.toNat / 64 % 64, 0x80 + c.val.toNat % 64]
  else
    [0xf0 + c.val.toNat / 262144, 0x80 + c.val.toNat / 4096 % 64,
      0x80 + c.val.toNat / 64 % 64, 0x80 + c.val.toNat % 64]

/-- The UTF-8 encoding of a text. -/
def utf8Bytes : Str → List Nat
  | [] => []
  | c :: rest => utf8EncodeChar c ++ utf8Bytes rest

/-- The UTF-16 little-endian encoding of a character: one unit, or a surrogate
pair above U+FFFF, each unit low byte first. -/
def utf16leEncodeChar (c : Char) : List Nat :=
  if c.val.toNat < 0x10000 then [c.val.toNat % 256, c.val.toNat / 256]
  else
    [(0xd800 + (c.val.toNat - 0x10000) / 1024) % 256,
      (0xd800 + (c.val.toNat - 0x10000) / 1024) / 256,
      (0xdc00 + (c.val.toNat - 0x10000) % 1024) % 256,
      (0xdc00 + (c.val.toNat - 0x10000) % 1024) / 256]

/-- The UTF-16 little-endian encoding of a text, without byte-order mark. -/
def utf16leBytes : Str → List Nat
  | [] => []
  | c :: rest => utf16leEncodeChar c ++ utf16leBytes rest

/-- How `Parse` ends for an opened file: with the I/O error of `isUTF16`, or
with the outcome of the line loop.  (`convertFileToUTF8` returns an error only
when reading fails, and a file that cannot be read has failed in `isUTF16`.) -/
inductive FileOutcome where
  | ioError (e : ReadError)
  | parsed (o : Outcome)
  deriving DecidableEq, Repr

/-- The UTF-16 code unit made of two bytes, in the given byte order. -/
def utf16Unit (bigEndian : Bool) (b0 b1 : Nat) : Nat :=
  if bigEndian then 256 * b0 + b1 else b0 + 256 * b1

/-- Go's `utf16.IsSurrogate`. -/
def isSurrogate (r : Nat) : Bool := 0xd800 ≤ r && r < 0xe000

/-- Go's `utf16.DecodeRune`: the code point of a surrogate pair, or U+FFFD when
the two units are not a leading and a trailing surrogate. -/
def utf16DecodeRune (r1 r2 : Nat) : Nat :=
  if 0xd800 ≤ r1 ∧ r1 < 0xdc00 ∧ 0xdc00 ≤ r2 ∧ r2 < 0xe000 then
    (r1 - 0xd800) * 1024 + (r2 - 0xdc00) + 0x10000
  else 0xfffd

/-- The decoding loop of the UTF-16 decoder of `golang.org/x/text` (method
`Transform` of `utf16Decoder`), on the whole input after the byte-order mark: a
unit that is no surrogate is its code point; a surrogate followed by a trailing
surrogate is decoded with `utf16.DecodeRune` and both units are consumed; any
other surrogate, and a single last byte, give U+FFFD. -/
def utf16Decode (bigEndian : Bool) : List Nat → Str
  | [] => []
  | [_] => ['\uFFFD']
  | b0 :: b1 :: rest =>
    if isSurrogate (utf16Unit bigEndian b0 b1) then
      match rest with
      | b2 :: b3 :: rest2 =>
        if 0xdc00 ≤ utf16Unit bigEndian b2 b3 ∧ utf16Unit bigEndian b2 b3 < 0xe000 then
          Char.ofNat (utf16DecodeRune (utf16Unit bigEndian b0 b1) (utf16Unit bigEndian b2 b3)) ::
            utf16Decode bigEndian rest2
        else '\uFFFD' :: utf16Decode bigEndian (b2 :: b3 :: rest2)
      | [b2] => '\uFFFD' :: utf16Decode bigEndian [b2]
      | [] => ['\uFFFD']
    else Char.ofNat (utf16Unit bigEndian b0 b1) :: utf16Decode bigEndian rest
termination_by structural l => l

/-- The function `convertFileToUTF8` on the bytes of the file from its position:
the decoder `unicode.UTF16(unicode.LittleEndian, unicode.UseBOM)` of
`golang.org/x/text` (library code) reads a leading FE FF or FF FE as the
byte-order mark, which sets the byte order and is consumed; without a mark the
byte order is little-endian.  The decoded text is written as UTF-8.  The decoder
returns no error of its own. -/
def convertFileToUTF8 (src : List Nat) : List Nat :=
  match src with
  | b0 :: b1 :: rest =>
    if b0 = 0xfe ∧ b1 = 0xff then utf8Bytes (utf16Decode true rest)
    else if b0 = 0xff ∧ b1 = 0xfe then utf8Bytes (utf16Decode false rest)
    else utf8Bytes (utf16Decode false src)
  | _ => utf8Bytes (utf16Decode false src)

/-- Go's `utf8.DecodeRune`: the first character of a byte string and the number
of its bytes.  Bytes that start no well-formed sequence (a stray continuation
byte, an overlong form, a surrogate, a value above U+10FFFF, a cut sequence)
give U+FFFD and width 1. -/
def utf8DecodeRune : List Nat → Char × Nat
  | [] => ('\uFFFD', 0)
  | b0 :: rest =>
    if b0 < 0x80 then (Char.ofNat b0, 1)
    else if 0xc2 ≤ b0 ∧ b0 < 0xe0 then
      match rest with
      | b1 :: _ =>
        if 0x80 ≤ b1 ∧ b1 < 0xc0 then (Char.ofNat ((b0 - 0xc0) * 64 + (b1 - 0x80)), 2)
        else ('\uFFFD', 1)
      | _ => ('\uFFFD', 1)
    else if 0xe0 ≤ b0 ∧ b0 < 0xf0 then
      match rest with
      | b1 :: b2 :: _ =>
        if (if b0 = 0xe0 then 0xa0 else 0x80) ≤ b1 ∧ b1 < (if b0 = 0xed then 0xa0 else 0xc0) ∧
            0x80 ≤ b2 ∧ b2 < 0xc0 then
          (Char.ofNat ((b0 - 0xe0) * 4096 + (b1 - 0x80) * 64 + (b2 - 0x80)), 3)
        else ('\uFFFD', 1)
      | _ => ('\uFFFD', 1)
    else if 0xf0 ≤ b0 ∧ b0 < 0xf5 then
      match rest with
      | b1 :: b2 :: b3 :: _ =>
        if (if b0 = 0xf0 then 0x90 else 0x80) ≤ b1 ∧ b1 < (if b0 = 0xf4 then 0x90 else 0xc0) ∧
            0x80 ≤ b2 ∧ b2 < 0xc0 ∧ 0x80 ≤ b3 ∧ b3 < 0xc0 then
          (Char.ofNat ((b0 - 0xf0) * 262144 + (b1 - 0x80) * 4096 + (b2 - 0x80) * 64 +
            (b3 - 0x80)), 4)
        else ('\uFFFD', 1)
      | _ => ('\uFFFD', 1)
    else ('\uFFFD', 1)

/-- The characters of a UTF-8 byte string, at most `fuel` of them. -/
def utf8Chars : Nat → List Nat → Str
  | 0, _ => []
  | _ + 1, [] => []
  | fuel + 1, b :: rest =>
    (utf8DecodeRune (b :: rest)).1 ::
      utf8Chars fuel ((b :: rest).drop (utf8DecodeRune (b :: rest)).2)

/-- The pieces of a byte stream between its line feeds; what follows the last
line feed is a piece if it is not empty.  `cur` is the piece read so far. -/
def splitLines (cur : List Nat) : List Nat → List (List Nat)
  | [] => if cur = [] then [] else [cur]
  | b :: rest =>
    if b = 0x0a then cur :: splitLines [] rest
    else splitLines (cur ++ [b]) rest

/-- The physical lines of a UTF-8 byte stream, each as text (the input of
`Parse` above).  The bytes are taken to be well-formed UTF-8, as the text
convention of this file has it. -/
def physicalLines (bytes : List Nat) : List Str :=
  (splitLines [] bytes).map (fun l => utf8Chars l.length l)

/-- The function `Parse` from the opened file on: `isUTF16`, then for a UTF-16
file the scanner over the converted bytes, else the scanner over the file from
its position. -/
def ParseFile (f : File) : FileOutcome :=
  match isUTF16 f with
  | (_, some err, _) => .ioError err
  | (true, none, f1) =>
    .parsed (Parse (physicalLines (convertFileToUTF8 (f1.bytes.drop f1.pos))))
  | (false, none, f1) => .parsed (Parse (physicalLines (f1.bytes.drop f1.pos)))

/-- The text of the counterexample to C15: U+FEFF, a comment line, and the
section `a`. -/
def bomCommentText : Str := "\uFEFF// c\n\"a\"\n\x7b\n\x7d\n".toList

/-- The text of the spec's encoding scenario. -/
def encodingScenarioText : Str := "\"a\"\n\x7b\n\"b\" \"c\"\n\x7d\n".toList

/-! ### `csgo/icons.go` -/

/-- The rest of `s` after the leading text `lead`, if `s` starts with it. -/
def dropLeading : Str → Str → Option Str
  | [], s => some s
  | _ :: _, [] => none
  | p :: ps, c :: cs => if p = c then dropLeading ps cs else none

/-- Go's `strings.TrimPrefix(s, lead)`: `s` without the leading `lead`, or `s`
itself when it does not start with it. -/
def TrimLeading (s lead : Str) : Str :=
  match dropLeading lead s with
  | some t => t
  | none => s

/-- Go's `strings.Split(s, "_")`: the pieces of `s` between underscores; one
piece more than there are underscores. -/
def Split : Str → List Str
  | [] => [[]]
  | c :: rest =>
    if c = '_' then [] :: Split rest
    else
      match Split rest with
      | [] => [[c]]
      | hd :: tl => (c :: hd) :: tl

/-- Go's `strings.Join(elems, "_")`. -/
def Join : List Str → Str
  | [] => []
  | [a] => a
  | a :: b :: rest => a ++ '_' :: Join (b :: rest)

/-- The literal `"econ/default_generated/"`. -/
def iconPathRoot : Str := "econ/default_generated/".toList

/-- The loop `for i := 0; i < len(components); i++` of
`getItemPaintkitFromIconPath`, from index `i` with `fuel` iterations left:
the first `i` whose joined leading components equal `itemId` returns them and
the joined components from `i` up to the last one, which is dropped.  The slice
`components[i:len(components)-1]` is in range, since `i < len(components)`. -/
def iconPathLoop (itemId : Str) (components : List Str) : Nat → Nat → Option (Str × Str)
  | 0, _ => none
  | fuel + 1, i =>
    let iId := Join (components.take i)
    let pkId := Join ((components.take (components.length - 1)).drop i)
    if iId ≠ itemId then iconPathLoop itemId components fuel (i + 1)
    else some (iId, pkId)

/-- The function `getItemPaintkitFromIconPath`: item id, paintkit id and error
(`none` is nil; the error message ends with the path). -/
def getItemPaintkitFromIconPath (itemId path : Str) : Str × Str × Option Str :=
  let pathTail := TrimLeading path iconPathRoot
  let components := Split pathTail
  match iconPathLoop itemId components components.length 0 with
  | some (iId, pkId) => (iId, pkId, none)
  | none =>
    ([], [], some ("unable to derive weapon and paintkit from icon path: ".toList ++ path))

/-- A name of 65534 letters `a`; its header line has 65536 bytes. -/
def longName : Str := List.replicate 65534 'a'

/-- A line of 65536 spaces. -/
def longBlank : Str := List.replicate 65536 ' '

/-- A line of 65536 letters `x`. -/
def longWord : Str := List.replicate 65536 'x'

/-- The previous token is one after which the body of a section continues. -/
def InBody (t : Token) : Prop := t = .opener ∨ t = .closer ∨ t = .data


/-! ## Line classification -/

theorem len_cons (c : Char) (s : Str) : len (c :: s) = c.utf8Size + len s := by
  simp [len]

theorem utf8Size_pos (c : Char) : 0 < c.utf8Size := by
  unfold Char.utf8Size
  dsimp only
  split_ifs <;> omega

theorem len_eq_zero (s : Str) : len s = 0 ↔ s = [] := by
  cases s with
  | nil => simp [len]
  | cons c s =>
    have := utf8Size_pos c
    simp [len_cons]
    omega

/-- A line that starts and ends outside the cutset is left alone by `Trim`. -/
theorem Trim_quoted (body : Str) :
    Trim ('"' :: (body ++ ['"'])) whitespaceCutset = '"' :: (body ++ ['"']) := by
  unfold Trim
  rw [List.dropWhile_cons_of_neg (by decide)]
  rw [← List.cons_append, List.rdropWhile_concat_neg _ _ _ (by decide)]

/-- Scanning the inside of a string up to its closing quote. -/
theorem loop_string (s : Str) (hs : Plain s) :
    ∀ (prev : Option Char) (subs : List Str) (cur rest : Str), prev ≠ some '\\' →
      parseDataLineLoop prev subs cur true (s ++ '"' :: rest) =
        parseDataLineLoop (some '"') (subs ++ [cur ++ s]) [] false rest := by
  induction s with
  | nil =>
    intro prev subs cur rest hp
    simp [parseDataLineLoop, hp]
  | cons c s ih =>
    intro prev subs cur rest hp
    obtain ⟨hq, hb⟩ := hs
    simp only [List.mem_cons, not_or] at hq hb
    have hc1 : c ≠ '"' := fun h => hq.1 h.symm
    have hc2 : c ≠ '\\' := fun h => hb.1 h.symm
    have := ih ⟨hq.2, hb.2⟩ (some c) subs (cur ++ [c]) rest (by simpa using hc2)
    simp [parseDataLineLoop, hc1, this]

/-- Scanning the inside of a string that is not closed on this line. -/
theorem loop_open (s : Str) (hs : '"' ∉ s) :
    ∀ (prev : Option Char) (subs : List Str) (cur : Str),
      parseDataLineLoop prev subs cur true s = (subs, true) := by
  induction s with
  | nil => intro prev subs cur; simp [parseDataLineLoop]
  | cons c s ih =>
    intro prev subs cur
    simp only [List.mem_cons, not_or] at hs
    have hc1 : c ≠ '"' := fun h => hs.1 h.symm
    simp [parseDataLineLoop, hc1, ih hs.2]

/-- An unescaped quote outside a string opens one. -/
theorem loop_openQuote (prev : Option Char) (subs : List Str) (cur rest : Str)
    (hp : prev ≠ some '\\') :
    parseDataLineLoop prev subs cur false ('"' :: rest) =
      parseDataLineLoop (some '"') subs cur true rest := by
  simp [parseDataLineLoop, hp]

/-- Outside a string, a character that is neither a quote nor a slash is skipped. -/
theorem loop_skip (prev : Option Char) (subs : List Str) (cur rest : Str) (c : Char)
    (h1 : c ≠ '"') (h2 : c ≠ '/') :
    parseDataLineLoop prev subs cur false (c :: rest) =
      parseDataLineLoop (some c) subs cur false rest := by
  simp [parseDataLineLoop, h1, h2]

theorem parseDataLine_headerLine (n : Str) (hn : Plain n) :
    parseDataLine (headerLine n) = ([n], false) := by
  unfold parseDataLine headerLine
  rw [loop_openQuote _ _ _ _ (by decide)]
  rw [loop_string n hn _ _ _ _ (by decide)]
  simp [parseDataLineLoop]

theorem parseDataLine_pairLine (k v : Str) (hk : Plain k) (hv : Plain v) :
    parseDataLine (pairLine k v) = ([k, v], false) := by
  unfold parseDataLine pairLine
  rw [loop_openQuote _ _ _ _ (by decide)]
  rw [loop_string k hk _ _ _ _ (by decide)]
  rw [loop_skip _ _ _ _ _ (by decide) (by decide), loop_openQuote _ _ _ _ (by decide)]
  rw [loop_string v hv _ _ _ _ (by decide)]
  simp [parseDataLineLoop]

/-- A line whose trimmed form starts with a double quote is classified by its
strings. -/
theorem getLineType_of_Trim (line0 body : Str)
    (h : Trim line0 whitespaceCutset = '"' :: body) :
    getLineType line0 =
      (if (parseDataLine ('"' :: body)).2 then (.openData, [], none)
       else if (parseDataLine ('"' :: body)).1.length == 1 then
         (.section_, (parseDataLine ('"' :: body)).1, none)
       else if (parseDataLine ('"' :: body)).1.length == 2 then
         (.data, (parseDataLine ('"' :: body)).1, none)
       else (.unknown, [], some "unrecognised line type")) := by
  unfold getLineType
  simp only [h]
  have h0 : (len ('"' :: body) == 0) = false := by
    simp [len_eq_zero]
  have h1 : hasCommentStart ('"' :: body) = false := by
    simp [hasCommentStart]
  have h2 : isWhitespace ('"' :: body) = false := by
    simp [isWhitespace, isRegexpSpace]
  simp [h0, h1, h2]

theorem getLineType_quoted (body : Str) :
    getLineType ('"' :: (body ++ ['"'])) =
      (if (parseDataLine ('"' :: (body ++ ['"']))).2 then (.openData, [], none)
       else if (parseDataLine ('"' :: (body ++ ['"']))).1.length == 1 then
         (.section_, (parseDataLine ('"' :: (body ++ ['"']))).1, none)
       else if (parseDataLine ('"' :: (body ++ ['"']))).1.length == 2 then
         (.data, (parseDataLine ('"' :: (body ++ ['"']))).1, none)
       else (.unknown, [], some "unrecognised line type")) :=
  getLineType_of_Trim _ _ (Trim_quoted body)

theorem getLineType_headerLine (n : Str) (hn : Plain n) :
    getLineType (headerLine n) = (.section_, [n], none) := by
  have h := getLineType_quoted n
  rw [show ('"' :: (n ++ ['"'])) = headerLine n from rfl, parseDataLine_headerLine n hn] at h
  simpa using h

theorem getLineType_pairLine (k v : Str) (hk : Plain k) (hv : Plain v) :
    getLineType (pairLine k v) = (.data, [k, v], none) := by
  have h := getLineType_quoted (k ++ '"' :: ' ' :: '"' :: v)
  rw [show ('"' :: ((k ++ '"' :: ' ' :: '"' :: v) ++ ['"'])) = pairLine k v by simp [pairLine],
    parseDataLine_pairLine k v hk hv] at h
  simpa using h

theorem getLineType_opener : getLineType ['{'] = (.opener, [], none) := by decide

theorem getLineType_closer : getLineType ['}'] = (.closer, [], none) := by decide

/-- Trailing characters are trimmed only up to the last one outside the cutset. -/
theorem rdropWhile_append_guard (p : Char → Bool) (xs v : Str) (q : Char) (hq : ¬ p q = true) :
    (xs ++ q :: v).rdropWhile p = xs ++ q :: v.rdropWhile p := by
  induction v using List.reverseRecOn with
  | nil =>
    rw [show xs ++ [q] = xs ++ [q] from rfl, List.rdropWhile_concat_neg _ _ _ hq]
    simp
  | append_singleton v c ih =>
    rw [show xs ++ q :: (v ++ [c]) = (xs ++ q :: v) ++ [c] by simp]
    by_cases hc : p c = true
    · rw [List.rdropWhile_concat_pos _ _ _ hc, List.rdropWhile_concat_pos _ _ _ hc, ih]
    · rw [List.rdropWhile_concat_neg _ _ _ hc, List.rdropWhile_concat_neg _ _ _ hc]
      simp

theorem Trim_openPairLine (k v1 : Str) :
    Trim (openPairLine k v1) whitespaceCutset =
      openPairLine k (v1.rdropWhile (fun c => whitespaceCutset.contains c)) := by
  unfold Trim openPairLine
  rw [List.dropWhile_cons_of_neg (by decide)]
  have := rdropWhile_append_guard (fun c => whitespaceCutset.contains c)
    ('"' :: (k ++ ['"', ' '])) v1 '"' (by decide)
  simpa using this

theorem getLineType_openPairLine (k v1 : Str) (hk : Plain k) (hv : '"' ∉ v1) :
    getLineType (openPairLine k v1) = (.openData, [], none) := by
  have hv2 : '"' ∉ v1.rdropWhile (fun c => whitespaceCutset.contains c) :=
    fun h => hv ((List.rdropWhile_prefix _ _).subset h)
  have hp : parseDataLine
      ('"' :: (k ++ '"' :: ' ' :: '"' :: v1.rdropWhile (fun c => whitespaceCutset.contains c))) =
        ([k], true) := by
    unfold parseDataLine
    rw [loop_openQuote _ _ _ _ (by decide), loop_string k hk _ _ _ _ (by decide),
      loop_skip _ _ _ _ _ (by decide) (by decide), loop_openQuote _ _ _ _ (by decide),
      loop_open _ hv2]
    simp
  have h := getLineType_of_Trim _ _ (Trim_openPairLine k v1)
  rw [hp] at h
  simpa using h

/-! ### Trailing comments -/

/-- A list is its right-trimmed part followed by characters of the trimmed class. -/
theorem rdropWhile_split (p : Char → Bool) (l : Str) :
    ∃ ws, l = l.rdropWhile p ++ ws ∧ ∀ c ∈ ws, p c = true := by
  induction l using List.reverseRecOn with
  | nil => exact ⟨[], by simp, by simp⟩
  | append_singleton l c ih =>
    by_cases hc : p c = true
    · obtain ⟨ws, h1, h2⟩ := ih
      refine ⟨ws ++ [c], ?_, ?_⟩
      · rw [List.rdropWhile_concat_pos _ _ _ hc, ← List.append_assoc, ← h1]
      · intro x hx
        rcases List.mem_append.1 hx with hx | hx
        · exact h2 x hx
        · simp at hx; simp [hx, hc]
    · exact ⟨[], by rw [List.rdropWhile_concat_neg _ _ _ hc]; simp, by simp⟩

theorem hasCommentStart_cons2 (c1 c2 : Char) (r : Str) :
    hasCommentStart (c1 :: c2 :: r) = (c1 == '/' && c2 == '/') := by
  by_cases h1 : c1 = '/' <;> by_cases h2 : c2 = '/' <;> simp [hasCommentStart, h1, h2]

theorem hasCommentStart_single (c : Char) : hasCommentStart [c] = false := by
  simp [hasCommentStart]

/-- A line that contains a slash does not match the whitespace pattern. -/
theorem isWhitespace_of_slash (s : Str) (h : '/' ∈ s) : isWhitespace s = false := by
  induction s using isWhitespace.induct with
  | case1 => simp at h
  | case2 rest ih =>
    simp only [isWhitespace]
    apply ih
    simpa using h
  | case3 c rest hne ih =>
    rw [isWhitespace]
    · by_cases hc : c = '/'
      · simp [hc, isRegexpSpace]
      · have : '/' ∈ rest := by
          rcases List.mem_cons.1 h with h | h
          · exact absurd h.symm hc
          · exact h
        simp [ih this]
    · exact hne

/-- Outside a string, spaces and tabs followed by `//` end the scan. -/
theorem loop_comment_tail (ws T : Str) (hws : ∀ c ∈ ws, c = ' ' ∨ c = '\t') :
    ∀ (prev : Option Char) (subs : List Str) (cur : Str),
      parseDataLineLoop prev subs cur false (ws ++ '/' :: '/' :: T) = (subs, false) := by
  induction ws with
  | nil => intro prev subs cur; simp [parseDataLineLoop]
  | cons w ws ih =>
    intro prev subs cur
    have hw := hws w (List.mem_cons_self _ _)
    have h1 : w ≠ '"' := by rcases hw with h | h <;> simp [h]
    have h2 : w ≠ '/' := by rcases hw with h | h <;> simp [h]
    rw [List.cons_append, loop_skip _ _ _ _ _ h1 h2]
    exact ih (fun c hc => hws c (List.mem_cons_of_mem _ hc)) _ _ _

/-- A scan that ends outside a string gives the same strings when text that is
skipped outside a string, and does not start with a slash, is appended. -/
theorem loop_append_tail (tail : Str) (hhead : tail.head? ≠ some '/')
    (htail : ∀ (prev : Option Char) (subs : List Str) (cur : Str),
      parseDataLineLoop prev subs cur false tail = (subs, false)) :
    ∀ (xs : Str) (prev : Option Char) (subs : List Str) (cur : Str) (q : Bool) (R : List Str),
      parseDataLineLoop prev subs cur q xs = (R, false) →
      parseDataLineLoop prev subs cur q (xs ++ tail) = (R, false) := by
  intro xs
  induction xs with
  | nil =>
    intro prev subs cur q R h
    simp only [parseDataLineLoop, Prod.mk.injEq] at h
    obtain ⟨h1, h2⟩ := h
    subst h1 h2
    simpa using htail prev subs cur
  | cons c rest ih =>
    intro prev subs cur q R h
    have hh : ((rest ++ tail).head? == some '/') = (rest.head? == some '/') := by
      cases rest with
      | nil =>
        cases tail with
        | nil => rfl
        | cons w tl =>
          have : w ≠ '/' := by simpa using hhead
          simp [this]
      | cons r rest => rfl
    rw [List.cons_append, parseDataLineLoop, hh]
    rw [parseDataLineLoop] at h
    split_ifs at h ⊢
    · exact h
    · exact ih _ _ _ _ _ h
    · exact ih _ _ _ _ _ h
    · exact ih _ _ _ _ _ h
    · exact ih _ _ _ _ _ h

/-- What a SectionHeader or DataPair classification says about the trimmed line. -/
theorem getLineType_strings (L : Str) (t : Token) (S : List Str)
    (hL : getLineType L = (t, S, none)) (ht : t = .section_ ∨ t = .data) :
    Trim L whitespaceCutset ≠ [] ∧ hasCommentStart (Trim L whitespaceCutset) = false ∧
    parseDataLine (Trim L whitespaceCutset) = (S, false) ∧
    ((t = .section_ ∧ S.length = 1) ∨ (t = .data ∧ S.length = 2)) := by
  unfold getLineType at hL
  dsimp only at hL
  rcases hp : parseDataLine (Trim L whitespaceCutset) with ⟨split, isOpen⟩
  rw [hp] at hL
  dsimp only at hL
  split_ifs at hL with h1 h2 h3 h4 h5 h6
  all_goals simp only [Prod.mk.injEq] at hL
  all_goals try (rcases ht with ht | ht <;> simp [ht] at hL <;> done)
  · simp only [Bool.or_eq_true, not_or, beq_iff_eq, len_eq_zero] at h1
    obtain ⟨hL1, hL2, -⟩ := hL
    subst hL1 hL2
    refine ⟨h1.1.1, by simpa using h1.1.2, ?_, Or.inl ⟨rfl, by simpa using h5⟩⟩
    simpa using h4
  · simp only [Bool.or_eq_true, not_or, beq_iff_eq, len_eq_zero] at h1
    obtain ⟨hL1, hL2, -⟩ := hL
    subst hL1 hL2
    refine ⟨h1.1.1, by simpa using h1.1.2, ?_, Or.inr ⟨rfl, by simpa using h6⟩⟩
    simpa using h4

/-- A trimmed line of at least two characters that is no comment, contains a
slash and is scanned into closed strings is classified by their number. -/
theorem getLineType_of_strings (L line : Str) (S : List Str)
    (hT : Trim L whitespaceCutset = line) (hlen : 2 ≤ line.length)
    (hc : hasCommentStart line = false) (hs : '/' ∈ line)
    (hp : parseDataLine line = (S, false)) :
    getLineType L =
      (if S.length == 1 then (.section_, S, none)
       else if S.length == 2 then (.data, S, none)
       else (.unknown, [], some "unrecognised line type")) := by
  unfold getLineType
  simp only [hT, hp]
  have h0 : (len line == 0) = false := by
    have : line ≠ [] := by intro h; simp [h] at hlen
    simpa [len_eq_zero] using this
  have h1 : (line == ['{']) = false := by
    have : line ≠ ['{'] := by intro h; simp [h] at hlen
    simpa using this
  have h2 : (line == ['}']) = false := by
    have : line ≠ ['}'] := by intro h; simp [h] at hlen
    simpa using this
  simp [h0, h1, h2, hc, isWhitespace_of_slash line hs]

/-- The trimmed form of a line with ` //` and more text appended: the left-trimmed
line, then ` //`, then the right-trimmed text. -/
theorem Trim_with_comment (L T : Str) (hne : Trim L whitespaceCutset ≠ []) :
    ∃ ws, (∀ c ∈ ws, c = ' ' ∨ c = '\t') ∧
      Trim (L ++ ' ' :: '/' :: '/' :: T) whitespaceCutset =
        Trim L whitespaceCutset ++
          ((ws ++ [' ']) ++ '/' :: '/' ::
            T.rdropWhile (fun c => whitespaceCutset.contains c)) := by
  unfold Trim at hne ⊢
  have hlt : L.dropWhile (fun c => whitespaceCutset.contains c) ≠ [] := by
    intro h
    rw [h] at hne
    simp at hne
  obtain ⟨ws, h1, h2⟩ := rdropWhile_split (fun c => whitespaceCutset.contains c)
    (L.dropWhile (fun c => whitespaceCutset.contains c))
  refine ⟨ws, ?_, ?_⟩
  · intro c hc
    have := h2 c hc
    simpa [whitespaceCutset] using this
  · rw [List.dropWhile_append]
    have : (List.dropWhile (fun c => whitespaceCutset.contains c) L).isEmpty = false := by
      cases hd : List.dropWhile (fun c => whitespaceCutset.contains c) L with
      | nil => exact absurd hd hlt
      | cons _ _ => rfl
    rw [this]
    simp only [Bool.false_eq_true, if_false]
    have hg := rdropWhile_append_guard (fun c => whitespaceCutset.contains c)
      (L.dropWhile (fun c => whitespaceCutset.contains c) ++ [' ', '/']) T '/' (by decide)
    rw [show L.dropWhile (fun c => whitespaceCutset.contains c) ++ ' ' :: '/' :: '/' :: T =
      (L.dropWhile (fun c => whitespaceCutset.contains c) ++ [' ', '/']) ++ '/' :: T by simp, hg]
    conv_lhs => rw [h1]
    simp

/-- Appending ` //` and any text to a line classified as SectionHeader or
DataPair changes neither the token nor the strings. -/
theorem getLineType_with_comment (L T : Str) (t : Token) (S : List Str)
    (hL : getLineType L = (t, S, none)) (ht : t = .section_ ∨ t = .data) :
    getLineType (L ++ ' ' :: '/' :: '/' :: T) = (t, S, none) := by
  obtain ⟨hne, hc, hp, hk⟩ := getLineType_strings L t S hL ht
  obtain ⟨ws, hws, hT⟩ := Trim_with_comment L T hne
  have hws2 : ∀ c ∈ ws ++ [' '], c = ' ' ∨ c = '\t' := by
    intro c hc
    rcases List.mem_append.1 hc with hc | hc
    · exact hws c hc
    · simp at hc; exact Or.inl hc
  have hhead : ((ws ++ [' ']) ++ '/' :: '/' ::
      T.rdropWhile (fun c => whitespaceCutset.contains c)).head? ≠ some '/' := by
    cases ws with
    | nil => simp
    | cons w ws =>
      have := hws w (List.mem_cons_self _ _)
      rcases this with h | h <;> simp [h]
  have hp2 := loop_append_tail _ hhead (loop_comment_tail (ws ++ [' ']) _ hws2)
    (Trim L whitespaceCutset) none [] [] false S hp
  have hres := getLineType_of_strings (L ++ ' ' :: '/' :: '/' :: T) _ S hT ?_ ?_ ?_ hp2
  · rw [hres]
    rcases hk with ⟨h1, h2⟩ | ⟨h1, h2⟩ <;> simp [h1, h2]
  · cases hl : Trim L whitespaceCutset with
    | nil => exact absurd hl hne
    | cons c r => simp; omega
  · cases hl : Trim L whitespaceCutset with
    | nil => exact absurd hl hne
    | cons c r =>
      rw [hl] at hc
      cases r with
      | nil =>
        cases ws with
        | nil => simp [hasCommentStart_cons2]
        | cons w ws =>
          have := hws w (List.mem_cons_self _ _)
          rcases this with h | h <;> simp [hasCommentStart_cons2, h]
      | cons c2 r =>
        rw [hasCommentStart_cons2] at hc
        simp only [List.cons_append, hasCommentStart_cons2]
        exact hc
  · simp

/-! ## The loop of `Parse` -/

/-- Outside a continuation, a classified non-empty line with a legal transition
reaches the `switch`. -/
theorem step_eq_dispatch (st : State) (text : Str) (t : Token) (d : List Str)
    (h0 : st.lastToken ≠ .openData) (hg : getLineType text = (t, d, none))
    (hne : t ≠ .empty) (hl : t ∈ language st.lastToken) :
    step st text =
      dispatch { st with lineCount := st.lineCount + 1, currentLine := text, lastToken := t }
        t d := by
  simp [step, h0, hg, hne, hl]

/-- The `switch` touches only the heap and the stack. -/
theorem dispatch_frame (st st2 : State) (t : Token) (d : List Str)
    (h : dispatch st t d = .next st2) :
    st2.lineCount = st.lineCount ∧ st2.lastToken = st.lastToken ∧
      st2.currentLine = st.currentLine := by
  unfold dispatch at h
  repeat' (split at h)
  all_goals (cases h; try exact ⟨rfl, rfl, rfl⟩)

theorem step_lineCount (st st2 : State) (x : Str) (h : step st x = .next st2) :
    st2.lineCount = st.lineCount + 1 := by
  unfold step at h
  dsimp only at h
  rcases hg : getLineType (if st.lastToken = .openData then st.currentLine ++ x else x)
    with ⟨t, d, e⟩
  rw [hg] at h
  cases e with
  | some msg => cases h
  | none =>
    dsimp only at h
    split_ifs at h
    all_goals first | (cases h; rfl) | exact (dispatch_frame _ _ _ _ h).1

theorem feed_lineCount (st st1 : State) (xs : List Str) (h : feed st xs = .next st1) :
    st1.lineCount = st.lineCount + xs.length := by
  induction xs generalizing st with
  | nil => simp [feed] at h; simp [← h]
  | cons x xs ih =>
    simp only [feed] at h
    cases hs : step st x with
    | done o => simp [hs] at h
    | next st2 =>
      rw [hs] at h
      have h2 := ih st2 h
      have h3 := step_lineCount st st2 x hs
      simp only [List.length_cons, h2, h3]
      omega

/-! ### The scanner -/

theorem len_append (s t : Str) : len (s ++ t) = len s + len t := by
  simp [len]

theorem len_replicate (n : Nat) (c : Char) : len (List.replicate n c) = n * c.utf8Size := by
  induction n with
  | zero => simp [len]
  | succ n ih =>
    rw [List.replicate_succ, len_cons, ih]
    ring

theorem len_headerLine (n : Str) : len (headerLine n) = len n + 2 := by
  have h1 : Char.utf8Size '"' = 1 := by decide
  simp only [headerLine, len_cons, len_append, h1]
  simp only [len, List.map_nil, List.sum_nil]
  omega

/-- A line that does not end in a carriage return is scanned as it is. -/
theorem dropCR_concat (s : Str) (c : Char) (h : c ≠ '\r') : dropCR (s ++ [c]) = s ++ [c] := by
  simp [dropCR, h]

theorem dropCR_concat_cr (s : Str) : dropCR (s ++ ['\r']) = s := by
  simp [dropCR]

theorem dropCR_headerLine (n : Str) : dropCR (headerLine n) = headerLine n := by
  have e : headerLine n = ('"' :: n) ++ ['"'] := by simp [headerLine]
  rw [e]
  exact dropCR_concat _ _ (by decide)

theorem dropCR_pairLine (k v : Str) : dropCR (pairLine k v) = pairLine k v := by
  have e : pairLine k v = ('"' :: (k ++ '"' :: ' ' :: '"' :: v)) ++ ['"'] := by simp [pairLine]
  rw [e]
  exact dropCR_concat _ _ (by decide)

/-- A carriage return at the end of an open value is the end of the value
fragment. -/
theorem dropCR_openPairLine (k v1 : Str) :
    dropCR (openPairLine k v1) = openPairLine k (dropCR v1) := by
  rcases List.eq_nil_or_concat v1 with h | ⟨w, c, h⟩
  · subst h
    have e : openPairLine k [] = ('"' :: (k ++ ['"', ' '])) ++ ['"'] := by simp [openPairLine]
    have e2 : dropCR ([] : Str) = [] := by simp [dropCR]
    rw [e2, e]
    exact dropCR_concat _ _ (by decide)
  · rw [List.concat_eq_append] at h
    subst h
    have e : openPairLine k (w ++ [c]) = ('"' :: (k ++ '"' :: ' ' :: '"' :: w)) ++ [c] := by
      simp [openPairLine]
    by_cases hc : c = '\r'
    · subst hc
      rw [e, dropCR_concat_cr, dropCR_concat_cr]
      simp [openPairLine]
    · rw [dropCR_concat w c hc, e]
      exact dropCR_concat _ _ hc

theorem steps_cons_long (st : State) (line : Str) (rest : List Str)
    (h : maxScanTokenSize ≤ len line) : steps st (line :: rest) = .done (.ok st.heap) := by
  simp [steps, h]

theorem steps_cons (st : State) (line : Str) (rest : List Str)
    (h : len line < maxScanTokenSize) :
    steps st (line :: rest) =
      match step st (dropCR line) with
      | .next st1 => steps st1 rest
      | .done o => .done o := by
  simp [steps, Nat.not_le.2 h]

theorem steps_append (st : State) (xs ys : List Str) :
    steps st (xs ++ ys) =
      match steps st xs with
      | .next st1 => steps st1 ys
      | .done o => .done o := by
  induction xs generalizing st with
  | nil => simp [steps]
  | cons x xs ih =>
    by_cases h : maxScanTokenSize ≤ len x
    · simp [steps, h]
    · simp only [List.cons_append, steps, h, if_false]
      cases step st (dropCR x) with
      | next st1 => simpa using ih st1
      | done o => simp

/-- On lines that the scanner delivers, the loop of `Parse` is the loop body
repeated over their texts. -/
theorem steps_eq_feed (lines : List Str) (h : ∀ l ∈ lines, len l < maxScanTokenSize) :
    ∀ st : State, steps st lines = feed st (lines.map dropCR) := by
  induction lines with
  | nil => intro st; rfl
  | cons x xs ih =>
    intro st
    have hx := h x (List.mem_cons_self _ _)
    rw [steps_cons st x xs hx]
    simp only [List.map_cons, feed]
    cases step st (dropCR x) with
    | next st1 => exact ih (fun l hl => h l (List.mem_cons_of_mem _ hl)) st1
    | done o => rfl

/-- When the loop has gone through all the lines, each of them was delivered by
the scanner. -/
theorem steps_next (lines : List Str) :
    ∀ (st st1 : State), steps st lines = .next st1 →
      (∀ l ∈ lines, len l < maxScanTokenSize) ∧ feed st (lines.map dropCR) = .next st1 := by
  induction lines with
  | nil => intro st st1 h; exact ⟨by simp, by simpa [steps, feed] using h⟩
  | cons x xs ih =>
    intro st st1 h
    by_cases hx : maxScanTokenSize ≤ len x
    · rw [steps_cons_long st x xs hx] at h
      cases h
    · have hx2 : len x < maxScanTokenSize := Nat.not_le.1 hx
      rw [steps_cons st x xs hx2] at h
      cases hs : step st (dropCR x) with
      | done o => rw [hs] at h; cases h
      | next st2 =>
        rw [hs] at h
        obtain ⟨h1, h2⟩ := ih st2 st1 h
        refine ⟨?_, ?_⟩
        · intro l hl
          rcases List.mem_cons.1 hl with e | e
          · rw [e]; exact hx2
          · exact h1 l e
        · simp only [List.map_cons, feed, hs]
          exact h2

theorem steps_lineCount (st st1 : State) (xs : List Str) (h : steps st xs = .next st1) :
    st1.lineCount = st.lineCount + xs.length := by
  have := feed_lineCount st st1 _ (steps_next xs st st1 h).2
  simpa using this

theorem Parse_eq_outcome (lines : List Str) : Parse lines = (steps initState lines).outcome := by
  unfold Parse
  cases steps initState lines <;> rfl

/-- A line of 65536 bytes or more at which the loop arrives ends `Parse` with
the tree built so far. -/
theorem Parse_long_line (pre : List Str) (st : State) (line : Str) (rest : List Str)
    (hpre : steps initState pre = .next st) (h : maxScanTokenSize ≤ len line) :
    Parse (pre ++ line :: rest) = .ok st.heap := by
  rw [Parse_eq_outcome, steps_append, hpre]
  simp only []
  rw [steps_cons_long st line rest h]
  rfl

theorem len_longName : len (headerLine longName) = 65536 := by
  have h1 : Char.utf8Size 'a' = 1 := by decide
  rw [len_headerLine, longName, len_replicate, h1]

theorem len_longBlank : len longBlank = 65536 := by
  have h1 : Char.utf8Size ' ' = 1 := by decide
  rw [longBlank, len_replicate, h1]

theorem len_longWord : len longWord = 65536 := by
  have h1 : Char.utf8Size 'x' = 1 := by decide
  rw [longWord, len_replicate, h1]

/-- C1 as stated fails: for the name of 65534 letters `a`, free of quotes,
backslashes and line breaks, the header line has 65536 bytes, the scanner does
not deliver it, the loop ends before its first iteration and `Parse` returns the
empty tree with no error. -/
theorem single_section_long_name :
    Plain longName ∧ '\n' ∉ longName ∧
    Parse [headerLine longName, ['{'], pairLine ['k'] ['v'], ['}']] = .ok [[]] ∧
    toTree [[]] = some (.section_ []) := by
  refine ⟨⟨?_, ?_⟩, ?_, ?_, by rfl⟩
  · intro h
    have := List.eq_of_mem_replicate h
    exact absurd this (by decide)
  · intro h
    have := List.eq_of_mem_replicate h
    exact absurd this (by decide)
  · intro h
    have := List.eq_of_mem_replicate h
    exact absurd this (by decide)
  · exact Parse_long_line [] initState (headerLine longName) _ rfl (by rw [len_longName]; decide)

/-- C1, amended. For every section name `n`, key `k` and value `v` without
double quote and backslash, such that the lines `"n"` and `"k" "v"` are shorter
than 65536 bytes (longer lines are not delivered by the scanner), `Parse` on the
four lines `"n"`, `{`, `"k" "v"`, `}` returns no error and the tree whose only
top-level key is `n`, a section whose only entry is the string leaf `k: v`. -/
theorem Parse_single_section (n k v : Str) (hn : Plain n) (hk : Plain k) (hv : Plain v)
    (h1 : len (headerLine n) < maxScanTokenSize) (h2 : len (pairLine k v) < maxScanTokenSize) :
    Parse [headerLine n, ['{'], pairLine k v, ['}']] = .ok [[(n, .map 1)], [(k, .str v)]] ∧
    toTree [[(n, .map 1)], [(k, .str v)]] =
      some (.section_ [(n, .section_ [(k, .value v)])]) := by
  constructor
  · have hb : ∀ l ∈ [headerLine n, ['{'], pairLine k v, ['}']], len l < maxScanTokenSize := by
      intro l hl
      simp only [List.mem_cons, List.mem_singleton, List.not_mem_nil, or_false] at hl
      rcases hl with e | e | e | e <;> subst e
      · exact h1
      · decide
      · exact h2
      · decide
    have e3 : dropCR ['{'] = ['{'] := by decide
    have e4 : dropCR ['}'] = ['}'] := by decide
    rw [Parse, steps_eq_feed _ hb]
    simp [feed, step, initState, getLineType_headerLine n hn, dropCR_headerLine,
      dropCR_pairLine, e3, e4,
      getLineType_pairLine k v hk hv, getLineType_opener, getLineType_closer, dispatch,
      language, Heap.store, GoMap.get, GoMap.put]
  · simp [toTree, reify, allSome]

/-- C1 amended, at the spec's scenario: `n = root`, `k = key`, `v = value`. -/
theorem Parse_single_section_witness :
    Parse [headerLine "root".toList, ['{'], pairLine "key".toList "value".toList, ['}']] =
        .ok [[("root".toList, .map 1)], [("key".toList, .str "value".toList)]] ∧
    toTree [[("root".toList, .map 1)], [("key".toList, .str "value".toList)]] =
      some (.section_ [("root".toList, .section_ [("key".toList, .value "value".toList)])]) :=
  Parse_single_section "root".toList "key".toList "value".toList
    (by decide) (by decide) (by decide) (by decide) (by decide)

theorem InBody.ne_openData {t : Token} (h : InBody t) : t ≠ .openData := by
  rcases h with h | h | h <;> simp [h]

theorem InBody.body_tokens {t : Token} (h : InBody t) :
    language t = [.section_, .data, .openData, .closer] := by
  rcases h with h | h | h <;> simp [h, language]

/-- Outside a continuation an Empty line only advances the line counter and
clears `currentLine`. -/
theorem step_empty (st : State) (l : Str) (h0 : st.lastToken ≠ .openData)
    (hg : getLineType l = (.empty, [], none)) :
    step st l = .next { st with lineCount := st.lineCount + 1, currentLine := [] } := by
  simp [step, h0, hg]

/-- Empty lines at the start of the input leave the parser in its initial state,
apart from the line counter. -/
theorem feed_empty_init (pre : List Str) (h : ∀ l ∈ pre, getLineType l = (.empty, [], none)) :
    ∀ c : Nat, feed { initState with lineCount := c } pre =
      .next { initState with lineCount := c + pre.length } := by
  induction pre with
  | nil => intro c; simp [feed]
  | cons l pre ih =>
    intro c
    have hl := h l (List.mem_cons_self _ _)
    have := ih (fun x hx => h x (List.mem_cons_of_mem _ hx)) (c + 1)
    simp only [feed]
    rw [step_empty _ l (by simp [initState]) hl]
    simp only [initState] at this ⊢
    rw [this]
    simp only [List.length_cons]
    congr 2
    omega

/-- The token stored in `lastToken` after an iteration: unchanged by an Empty
line, otherwise the token of the line. -/
theorem step_lastToken (st st2 : State) (text : Str) (t : Token) (d : List Str)
    (hg : getLineType (if st.lastToken = .openData then st.currentLine ++ text else text) =
      (t, d, none))
    (h : step st text = .next st2) :
    st2.lastToken = if t = .empty then st.lastToken else t := by
  unfold step at h
  dsimp only at h
  rw [hg] at h
  dsimp only at h
  by_cases h1 : t = .empty
  · simp only [h1, if_true] at h ⊢
    cases h
    rfl
  · simp only [h1, if_false] at h ⊢
    split_ifs at h
    all_goals exact (dispatch_frame _ _ _ _ h).2.1

theorem dispatch_ne_unexpected (st : State) (t : Token) (d : List Str) (n : Nat) :
    dispatch st t d ≠ .done (.error (.unexpectedTokenOnLine n)) := by
  intro h
  unfold dispatch at h
  repeat' (split at h)
  all_goals (cases h)

/-- The error of the grammar check is returned only by the grammar check. -/
theorem step_unexpected_only_by_table (st : State) (text : Str) (t : Token) (d : List Str)
    (n : Nat)
    (hg : getLineType (if st.lastToken = .openData then st.currentLine ++ text else text) =
      (t, d, none))
    (hl : t ∈ language st.lastToken) :
    step st text ≠ .done (.error (.unexpectedTokenOnLine n)) := by
  intro h
  unfold step at h
  dsimp only at h
  rw [hg] at h
  dsimp only at h
  by_cases h1 : t = .empty
  · simp only [h1, if_true] at h
    cases h
  · simp only [h1, if_false, hl, not_true_eq_false] at h
    split_ifs at h
    all_goals exact dispatch_ne_unexpected _ _ _ _ h

/-- An illegal transition at a line that the loop reaches ends `Parse` with the
grammar error carrying the number of that physical line. -/
theorem Parse_illegal_transition (pre : List Str) (st : State) (text : Str) (rest : List Str)
    (t : Token) (d : List Str) (hpre : steps initState pre = .next st)
    (hlen : len text < maxScanTokenSize)
    (hg : getLineType
        (if st.lastToken = .openData then st.currentLine ++ dropCR text else dropCR text) =
      (t, d, none))
    (hne : t ≠ .empty) (hl : t ∉ language st.lastToken) :
    Parse (pre ++ text :: rest) = .error (.unexpectedTokenOnLine (pre.length + 1)) := by
  have hc := steps_lineCount _ _ _ hpre
  simp only [initState, Nat.zero_add] at hc
  rw [Parse, steps_append, hpre]
  simp only []
  rw [steps_cons st text rest hlen]
  have : step st (dropCR text) = .done (.error (.unexpectedTokenOnLine (pre.length + 1))) := by
    unfold step
    dsimp only
    rw [hg]
    simp [hne, hl, hc]
  rw [this]

/-! ### Inputs with one token per physical line -/

theorem tokenOf_empty {l : Str} (h : tokenOf l = some none) :
    len l < maxScanTokenSize ∧ getLineType (dropCR l) = (.empty, [], none) := by
  unfold tokenOf at h
  split_ifs at h with hl
  refine ⟨Nat.not_le.1 hl, ?_⟩
  split at h <;> simp_all

theorem tokenOf_header {l n : Str} (h : tokenOf l = some (some (.header n))) :
    len l < maxScanTokenSize ∧ getLineType (dropCR l) = (.section_, [n], none) := by
  unfold tokenOf at h
  split_ifs at h with hl
  refine ⟨Nat.not_le.1 hl, ?_⟩
  split at h <;> simp_all

theorem tokenOf_pair {l k v : Str} (h : tokenOf l = some (some (.pair k v))) :
    len l < maxScanTokenSize ∧ getLineType (dropCR l) = (.data, [k, v], none) := by
  unfold tokenOf at h
  split_ifs at h with hl
  refine ⟨Nat.not_le.1 hl, ?_⟩
  split at h <;> simp_all

theorem tokenOf_opener {l : Str} (h : tokenOf l = some (some .opener)) :
    len l < maxScanTokenSize ∧ getLineType (dropCR l) = (.opener, [], none) := by
  unfold tokenOf at h
  split_ifs at h with hl
  refine ⟨Nat.not_le.1 hl, ?_⟩
  split at h <;> simp_all

theorem tokenOf_closer {l : Str} (h : tokenOf l = some (some .closer)) :
    len l < maxScanTokenSize ∧ getLineType (dropCR l) = (.closer, [], none) := by
  unfold tokenOf at h
  split_ifs at h with hl
  refine ⟨Nat.not_le.1 hl, ?_⟩
  split at h <;> simp_all

theorem tokens_empties (es ls : List Str) (h : ∀ e ∈ es, tokenOf e = some none) :
    tokens (es ++ ls) = tokens ls := by
  induction es with
  | nil => rfl
  | cons e es ih =>
    simp only [List.cons_append, tokens, h e (List.mem_cons_self _ _)]
    exact ih (fun x hx => h x (List.mem_cons_of_mem _ hx))

/-- The line that carries the first token, the Empty lines before it and the
lines after it. -/
theorem tokens_cons_inv (lines : List Str) :
    ∀ (t : Tok) (ts : List Tok), tokens lines = some (t :: ts) →
      ∃ es l ls, lines = es ++ l :: ls ∧ (∀ e ∈ es, tokenOf e = some none) ∧
        tokenOf l = some (some t) ∧ tokens ls = some ts := by
  induction lines with
  | nil => intro t ts h; simp [tokens] at h
  | cons x xs ih =>
    intro t ts h
    simp only [tokens] at h
    cases hx : tokenOf x with
    | none => simp [hx] at h
    | some o =>
      cases o with
      | none =>
        rw [hx] at h
        obtain ⟨es, l, ls, e1, e2, e3, e4⟩ := ih t ts h
        refine ⟨x :: es, l, ls, by simp [e1], ?_, e3, e4⟩
        intro e he
        rcases List.mem_cons.1 he with he | he
        · rw [he]; exact hx
        · exact e2 e he
      | some t0 =>
        rw [hx] at h
        cases hts : tokens xs with
        | none => simp [hts] at h
        | some ts0 =>
          simp only [hts, Option.map_some', Option.some.injEq, List.cons.injEq] at h
          obtain ⟨h1, h2⟩ := h
          subst h1 h2
          exact ⟨[], x, xs, rfl, by simp, hx, hts⟩

theorem tokens_nil_inv (lines : List Str) :
    tokens lines = some [] → ∀ e ∈ lines, tokenOf e = some none := by
  induction lines with
  | nil => intro _ e he; simp at he
  | cons x xs ih =>
    intro h
    simp only [tokens] at h
    cases hx : tokenOf x with
    | none => simp [hx] at h
    | some o =>
      cases o with
      | none =>
        rw [hx] at h
        intro e he
        rcases List.mem_cons.1 he with he | he
        · rw [he]; exact hx
        · exact ih h e he
      | some t0 =>
        rw [hx] at h
        cases hts : tokens xs with
        | none => simp [hts] at h
        | some ts0 => simp [hts] at h

/-- An input whose tokens are `ts1` followed by `ts2` is an input with the
tokens `ts1` followed by one with the tokens `ts2`. -/
theorem tokens_append_inv (ts1 : List Tok) :
    ∀ (lines : List Str) (ts2 : List Tok), tokens lines = some (ts1 ++ ts2) →
      ∃ l1 l2, lines = l1 ++ l2 ∧ tokens l1 = some ts1 ∧ tokens l2 = some ts2 := by
  induction ts1 with
  | nil => intro lines ts2 h; exact ⟨[], lines, rfl, rfl, h⟩
  | cons t ts ih =>
    intro lines ts2 h
    obtain ⟨es, l, ls, e1, e2, e3, e4⟩ := tokens_cons_inv lines t (ts ++ ts2) h
    obtain ⟨m1, m2, f1, f2, f3⟩ := ih ls ts2 e4
    refine ⟨es ++ l :: m1, m2, by simp [e1, f1], ?_, f3⟩
    rw [tokens_empties es _ e2]
    simp [tokens, e3, f2]

/-- Empty lines outside a continuation leave heap, stack and token state. -/
theorem steps_empties (es : List Str) :
    ∀ st : State, (∀ e ∈ es, tokenOf e = some none) → st.lastToken ≠ .openData →
      ∃ st1, steps st es = .next st1 ∧ st1.heap = st.heap ∧
        st1.openSections = st.openSections ∧ st1.lastToken = st.lastToken := by
  induction es with
  | nil => intro st _ _; exact ⟨st, rfl, rfl, rfl, rfl⟩
  | cons e es ih =>
    intro st h h0
    obtain ⟨hl, hg⟩ := tokenOf_empty (h e (List.mem_cons_self _ _))
    obtain ⟨st1, e1, e2, e3, e4⟩ := ih
      { st with lineCount := st.lineCount + 1, currentLine := [] }
      (fun x hx => h x (List.mem_cons_of_mem _ hx)) h0
    refine ⟨st1, ?_, e2, e3, e4⟩
    rw [steps_cons st e es hl, step_empty st (dropCR e) h0 hg]
    exact e1

/-- The loop on Empty lines followed by one more line, outside a
continuation. -/
theorem steps_line (es : List Str) (l : Str) (rest : List Str) (st : State)
    (hes : ∀ e ∈ es, tokenOf e = some none) (h0 : st.lastToken ≠ .openData)
    (hl : len l < maxScanTokenSize) :
    ∃ st1, st1.heap = st.heap ∧ st1.openSections = st.openSections ∧
      st1.lastToken = st.lastToken ∧
      steps st (es ++ l :: rest) =
        match step st1 (dropCR l) with
        | .next st2 => steps st2 rest
        | .done o => .done o := by
  obtain ⟨st1, e1, e2, e3, e4⟩ := steps_empties es st hes h0
  refine ⟨st1, e2, e3, e4, ?_⟩
  rw [steps_append, e1]
  simp only []
  rw [steps_cons st1 l rest hl]

/-- A data line in a section body is stored in the map on top of the stack. -/
theorem step_data (st : State) (text k v : Str) (a : Nat) (stack : List Val) (m : GoMap)
    (hg : getLineType text = (.data, [k, v], none))
    (hs : st.openSections = .map a :: stack) (hh : st.heap[a]? = some m)
    (ht : InBody st.lastToken) :
    step st text =
      .next { heap := st.heap.set a (m.put k (.str v)), openSections := st.openSections,
              lastToken := .data, lineCount := st.lineCount + 1, currentLine := text } := by
  rw [step_eq_dispatch st _ .data [k, v] ht.ne_openData hg (by decide)
    (by simp [ht.body_tokens])]
  simp [dispatch, hs, hh, Heap.store]

/-- A header, in any form of the line, whose name is a key of the current
section pushes the value stored under it and leaves the heap alone. -/
theorem step_section_present (st : State) (text n : Str) (a : Nat) (stack : List Val)
    (m : GoMap) (x : Val) (hg : getLineType text = (.section_, [n], none))
    (hs : st.openSections = .map a :: stack) (hh : st.heap[a]? = some m)
    (hx : m.get n = some x) (ht : InBody st.lastToken ∨ st.lastToken = .root) :
    step st text =
      .next { heap := st.heap, openSections := x :: st.openSections,
              lastToken := .section_, lineCount := st.lineCount + 1, currentLine := text } := by
  have h0 : st.lastToken ≠ .openData := by
    rcases ht with ht | ht
    · exact ht.ne_openData
    · simp [ht]
  have hl : Token.section_ ∈ language st.lastToken := by
    rcases ht with ht | ht
    · simp [ht.body_tokens]
    · simp [ht, language]
  rw [step_eq_dispatch st _ .section_ [n] h0 hg (by decide) hl]
  simp [dispatch, hs, hh, hx]

/-- A header whose name is not a key of the current section allocates a new
empty map, stores it under the name and pushes it. -/
theorem step_section_absent (st : State) (text n : Str) (a : Nat) (stack : List Val)
    (m : GoMap) (hg : getLineType text = (.section_, [n], none))
    (hs : st.openSections = .map a :: stack) (hh : st.heap[a]? = some m)
    (hx : m.get n = none) (ht : InBody st.lastToken ∨ st.lastToken = .root) :
    step st text =
      .next { heap := st.heap.set a (m.put n (.map st.heap.length)) ++ [[]],
              openSections := .map st.heap.length :: st.openSections,
              lastToken := .section_, lineCount := st.lineCount + 1, currentLine := text } := by
  have h0 : st.lastToken ≠ .openData := by
    rcases ht with ht | ht
    · exact ht.ne_openData
    · simp [ht]
  have hl : Token.section_ ∈ language st.lastToken := by
    rcases ht with ht | ht
    · simp [ht.body_tokens]
    · simp [ht, language]
  rw [step_eq_dispatch st _ .section_ [n] h0 hg (by decide) hl]
  simp [dispatch, hs, hh, hx, Heap.store]

theorem step_open (st : State) (text : Str) (hg : getLineType text = (.opener, [], none))
    (ht : st.lastToken = .section_) :
    step st text =
      .next { st with lastToken := .opener, lineCount := st.lineCount + 1,
                      currentLine := text } := by
  rw [step_eq_dispatch st _ .opener [] (by simp [ht]) hg (by decide) (by simp [ht, language])]
  simp [dispatch]

theorem step_close (st : State) (text : Str) (x : Val) (stack : List Val)
    (hg : getLineType text = (.closer, [], none))
    (hs : st.openSections = x :: stack) (ht : InBody st.lastToken) :
    step st text =
      .next { st with openSections := stack, lastToken := .closer,
                      lineCount := st.lineCount + 1, currentLine := text } := by
  rw [step_eq_dispatch st _ .closer [] ht.ne_openData hg (by decide)
    (by simp [ht.body_tokens])]
  simp [dispatch, hs]

/-- The lines of a document, one token per physical line in any form and with
Empty lines anywhere, met in the body of the section at `a` (or at the start of
the input, when the document begins with a section), are processed without
failure and leave the heap that `build` describes; the stack is as before. -/
theorem steps_doc (d : Doc) :
    ∀ (lines : List Str) (h1 : Heap) (st : State) (a : Nat) (stack : List Val),
      tokens lines = some d.toks → st.openSections = .map a :: stack →
      (InBody st.lastToken ∨ (st.lastToken = .root ∧ d.startsWithSec)) →
      build d st.heap a = some h1 →
      ∃ st1, steps st lines = .next st1 ∧ st1.heap = h1 ∧
        st1.openSections = st.openSections ∧
        (InBody st1.lastToken ∨ st1.lastToken = st.lastToken) := by
  induction d with
  | nil =>
    intro lines h1 st a stack hl _ ht hb
    simp only [build, Option.some.injEq] at hb
    have h0 : st.lastToken ≠ .openData := by
      rcases ht with ht | ⟨_, ht⟩
      · exact ht.ne_openData
      · exact absurd ht (by simp [Doc.startsWithSec])
    obtain ⟨st1, e1, e2, e3, e4⟩ := steps_empties lines st
      (tokens_nil_inv lines (by simpa [Doc.toks] using hl)) h0
    exact ⟨st1, e1, by rw [e2, hb], e3, Or.inr e4⟩
  | pair k v rest ih =>
    intro lines h1 st a stack hl hs ht hb
    have ht : InBody st.lastToken := by
      rcases ht with ht | ⟨_, ht⟩
      · exact ht
      · exact absurd ht (by simp [Doc.startsWithSec])
    obtain ⟨es, l, ls, e1, e2, e3, e4⟩ := tokens_cons_inv lines _ _ (by simpa [Doc.toks] using hl)
    obtain ⟨hlen, hg⟩ := tokenOf_pair e3
    obtain ⟨stA, a1, a2, a3, a4⟩ := steps_line es l ls st e2 ht.ne_openData hlen
    cases hh : st.heap[a]? with
    | none => simp [build, hh] at hb
    | some m =>
      simp only [build, hh] at hb
      have hstep := step_data stA (dropCR l) k v a stack m hg (by rw [a2, hs])
        (by rw [a1, hh]) (by rw [a3]; exact ht)
      obtain ⟨st1, f1, f2, f3, f4⟩ := ih ls h1
        { heap := stA.heap.set a (m.put k (.str v)), openSections := stA.openSections,
          lastToken := .data, lineCount := stA.lineCount + 1, currentLine := dropCR l }
        a stack e4 (by rw [a2, hs]) (Or.inl (Or.inr (Or.inr rfl))) (by simpa [a1] using hb)
      refine ⟨st1, ?_, f2, by rw [f3, a2], Or.inl ?_⟩
      · rw [e1, a4, hstep]
        exact f1
      · rcases f4 with f4 | f4
        · exact f4
        · exact Or.inr (Or.inr f4)
  | sec n body rest ihb ihr =>
    intro lines h1 st a stack hl hs ht hb
    have ht2 : InBody st.lastToken ∨ st.lastToken = .root := by
      rcases ht with ht | ⟨ht, _⟩
      · exact Or.inl ht
      · exact Or.inr ht
    have h0 : st.lastToken ≠ .openData := by
      rcases ht2 with ht | ht
      · exact ht.ne_openData
      · simp [ht]
    -- the header line
    obtain ⟨es, l, ls, e1, e2, e3, e4⟩ := tokens_cons_inv lines _ _ (by simpa [Doc.toks] using hl)
    obtain ⟨hlen, hg⟩ := tokenOf_header e3
    obtain ⟨stA, a1, a2, a3, a4⟩ := steps_line es l ls st e2 h0 hlen
    -- the Opener line
    obtain ⟨es2, l2, ls2, o1, o2, o3, o4⟩ := tokens_cons_inv ls _ _ e4
    obtain ⟨hlen2, hg2⟩ := tokenOf_opener o3
    -- the body, the Closer line and the rest
    obtain ⟨lb, lr, b1, b2, b3⟩ := tokens_append_inv body.toks ls2 _ o4
    obtain ⟨es3, l3, ls3, c1, c2, c3, c4⟩ := tokens_cons_inv lr _ _ b3
    obtain ⟨hlen3, hg3⟩ := tokenOf_closer c3
    cases hh : st.heap[a]? with
    | none => simp [build, hh] at hb
    | some m =>
      simp only [build, hh] at hb
      -- the state after the header, for the pushed map `c`
      have key : ∀ (hp0 : Heap) (c : Nat) (stB : State),
          step stA (dropCR l) = .next stB → stB.heap = hp0 →
          stB.openSections = .map c :: st.openSections → stB.lastToken = .section_ →
          ((build body hp0 c).bind (fun h2 => build rest h2 a)) = some h1 →
          ∃ st1, steps st lines = .next st1 ∧ st1.heap = h1 ∧
            st1.openSections = st.openSections ∧
            (InBody st1.lastToken ∨ st1.lastToken = st.lastToken) := by
        intro hp0 c stB hB hBh hBs hBt hb2
        obtain ⟨h2, hb3, hb4⟩ := Option.bind_eq_some.1 hb2
        obtain ⟨stC, d1, d2, d3, d4⟩ := steps_line es2 l2 ls2 stB o2 (by simp [hBt]) hlen2
        have hopen := step_open stC (dropCR l2) hg2 (by rw [d3, hBt])
        obtain ⟨stD, f1, f2, f3, f4⟩ := ihb lb h2
          { stC with lastToken := .opener, lineCount := stC.lineCount + 1,
                     currentLine := dropCR l2 }
          c st.openSections b2 (by simp only []; rw [d2, hBs]) (Or.inl (Or.inl rfl))
          (by simpa [d1, hBh] using hb3)
        have f5 : InBody stD.lastToken := by
          rcases f4 with f4 | f4
          · exact f4
          · exact Or.inl f4
        obtain ⟨stE, g1, g2, g3, g4⟩ := steps_line es3 l3 ls3 stD c2 f5.ne_openData hlen3
        have hcl := step_close stE (dropCR l3) (.map c) st.openSections hg3
          (by rw [g2, f3]; simp only []; rw [d2, hBs]) (by rw [g3]; exact f5)
        obtain ⟨st1, k1, k2, k3, k4⟩ := ihr ls3 h1
          { stE with openSections := st.openSections, lastToken := .closer,
                     lineCount := stE.lineCount + 1, currentLine := dropCR l3 }
          a stack c4 hs (Or.inl (Or.inr (Or.inl rfl))) (by simpa [g1, f2] using hb4)
        refine ⟨st1, ?_, k2, k3, Or.inl ?_⟩
        · rw [e1, a4, hB]
          simp only []
          rw [o1, d4, hopen]
          simp only []
          rw [b1, steps_append, f1]
          simp only []
          rw [c1, g4, hcl]
          exact k1
        · rcases k4 with k4 | k4
          · exact k4
          · exact Or.inr (Or.inl k4)
      have hsA : stA.openSections = .map a :: stack := by rw [a2, hs]
      have hhA : stA.heap[a]? = some m := by rw [a1, hh]
      have htA : InBody stA.lastToken ∨ stA.lastToken = .root := by rw [a3]; exact ht2
      cases hx : m.get n with
      | none =>
        rw [hx] at hb
        refine key _ st.heap.length _ (step_section_absent stA (dropCR l) n a stack m hg hsA hhA
          hx htA) rfl ?_ rfl (by simpa [a1] using hb)
        simp only [a1, a2]
      | some x =>
        rw [hx] at hb
        cases x with
        | str s0 => simp at hb
        | map c =>
          refine key _ c _ (step_section_present stA (dropCR l) n a stack m (.map c) hg hsA hhA
            hx htA) rfl ?_ rfl (by simpa [a1] using hb)
          simp only [a2]

/-- A document that begins with a section, given with one token per physical
line, is parsed into the heap that `build` describes, started from the empty
root map. -/
theorem Parse_doc (d : Doc) (lines : List Str) (h1 : Heap) (hl : tokens lines = some d.toks)
    (hs : d.startsWithSec) (hb : build d [[]] 0 = some h1) : Parse lines = .ok h1 := by
  obtain ⟨st1, e1, e2, -, -⟩ := steps_doc d lines h1 initState 0 [] hl rfl
    (Or.inr ⟨rfl, hs⟩) hb
  rw [Parse, e1]
  simp [e2]

theorem GoMap.get_put (m : GoMap) (k k1 : Str) (v : Val) :
    (m.put k v).get k1 = if k = k1 then some v else m.get k1 := by
  induction m with
  | nil => simp [GoMap.put, GoMap.get]
  | cons e rest ih =>
    obtain ⟨k0, v0⟩ := e
    by_cases h0 : k0 = k
    · subst h0
      simp only [GoMap.put, GoMap.get, if_true]
      split_ifs <;> rfl
    · by_cases h1 : k0 = k1
      · subst h1
        have : ¬ k = k0 := fun e => h0 e.symm
        simp [GoMap.put, GoMap.get, h0, this]
      · simp [GoMap.put, GoMap.get, h0, h1, ih]

/-- Assigning a string where `S` has a data pair: no section is there, so no
map reference is lost. -/
theorem Grows.pair {S T : List (List Str × Str)} {P : Paths} {h : Heap} {a : Nat}
    {m : GoMap} {p : List Str} (k v : Str) (ok : HeapOK S T P h)
    (hST : ∀ e ∈ S, e ∉ T) (hm : h[a]? = some m) (hp : P[a]? = some p) (hk : (p, k) ∈ S) :
    Grows P P h (h.set a (m.put k (.str v))) := by
  refine ⟨by simp, fun _ _ hq => hq, ?_⟩
  intro b mb hb
  by_cases e : a = b
  · subst e
    rw [hm] at hb
    cases hb
    refine ⟨m.put k (.str v), by
      rw [List.getElem?_set_self (List.getElem?_eq_some.1 hm).1], ?_, ?_⟩
    · intro k1 h1
      rw [GoMap.get_put]
      split_ifs <;> simp [h1]
    · intro k1 c h1
      rw [GoMap.get_put]
      have : k ≠ k1 := by
        intro e
        subst e
        exact hST _ hk ((ok.2 a m p k hm hp).2 c h1).1
      simp [this, h1]
  · exact ⟨mb, by rw [List.getElem?_set_ne e]; exact hb, fun _ hk => hk, fun _ _ hk => hk⟩

theorem GoMap.keys_put (m : GoMap) (k : Str) (v : Val) :
    (m.put k v).map Prod.fst =
      if k ∈ m.map Prod.fst then m.map Prod.fst else m.map Prod.fst ++ [k] := by
  induction m with
  | nil => simp [GoMap.put]
  | cons e rest ih =>
    obtain ⟨k0, v0⟩ := e
    by_cases h0 : k0 = k
    · subst h0
      simp only [GoMap.put, if_true, List.map_cons, List.mem_cons, true_or]
    · have : ¬ k = k0 := fun e => h0 e.symm
      simp only [GoMap.put, h0, if_false, List.map_cons, ih, List.mem_cons, this, false_or]
      split_ifs
      · rfl
      · rfl

theorem GoMap.nodup_put (m : GoMap) (k : Str) (v : Val) (h : (m.map Prod.fst).Nodup) :
    ((m.put k v).map Prod.fst).Nodup := by
  rw [GoMap.keys_put]
  split_ifs with hk
  · exact h
  · exact List.Nodup.append h (List.nodup_singleton k) (List.disjoint_singleton.2 hk)

theorem GoMap.mem_keys_of_get {m : GoMap} {k : Str} {v : Val} (h : m.get k = some v) :
    k ∈ m.map Prod.fst := by
  induction m with
  | nil => simp [GoMap.get] at h
  | cons e rest ih =>
    obtain ⟨k0, v0⟩ := e
    by_cases h0 : k0 = k
    · simp only [List.map_cons, List.mem_cons]
      exact Or.inl h0.symm
    · simp only [GoMap.get, h0, if_false] at h
      simp only [List.map_cons, List.mem_cons]
      exact Or.inr (ih h)

theorem KeysUnique.store {h : Heap} (u : KeysUnique h) (a : Nat) (k : Str) (v : Val) :
    KeysUnique (h.store a k v) := by
  unfold Heap.store
  cases hm : h[a]? with
  | none => exact u
  | some m =>
    intro b mb hb
    by_cases e : a = b
    · subst e
      rw [List.getElem?_set_self (List.getElem?_eq_some.1 hm).1] at hb
      cases hb
      exact GoMap.nodup_put m k v (u a m hm)
    · rw [List.getElem?_set_ne e] at hb
      exact u b mb hb

theorem mem_of_mem_dropCR {c : Char} {s : Str} (h : c ∈ dropCR s) : c ∈ s := by
  unfold dropCR at h
  split_ifs at h
  · exact List.mem_of_mem_dropLast h
  · exact h

theorem Plain.dropCR {s : Str} (h : Plain s) : Plain (dropCR s) :=
  ⟨fun hc => h.1 (mem_of_mem_dropCR hc), fun hc => h.2 (mem_of_mem_dropCR hc)⟩

/-- C4 as stated fails: the one string scanned from `"a\"b"` is not the three
characters a, quote, b. -/
theorem escapedQuote_not_unescaped :
    ¬ (parseDataLine escapedQuoteLine = ([['a', '"', 'b']], false)) := by
  decide

/-- C4, amended. The line `"a\"b"` is scanned as exactly one closed string (so
`getLineType` returns SectionHeader); the escaped quote does not end the
string, and the content is the four characters a, backslash, quote, b: the
backslash is kept. -/
theorem escapedQuote_keeps_backslash :
    parseDataLine escapedQuoteLine = ([['a', '\\', '"', 'b']], false) ∧
    getLineType escapedQuoteLine = (.section_, [['a', '\\', '"', 'b']], none) := by
  decide

/-- C6. For every key `k` and value `v` without double quote and backslash,
`getLineType` on the line `"k" "v"` returns DataPair with exactly the strings
`[k, v]`, and in particular `"key" "val//ue"` gives `(key, val//ue)`. -/
theorem getLineType_recovers_pair (k v : Str) (hk : Plain k) (hv : Plain v) :
    getLineType (pairLine k v) = (.data, [k, v], none) ∧
    getLineType "\"key\" \"val//ue\"".toList =
      (.data, ["key".toList, "val//ue".toList], none) :=
  ⟨getLineType_pairLine k v hk hv, by decide⟩

/-- C6 at a key with a space and a non-ASCII character and a value with a
comment marker and braces. -/
theorem getLineType_recovers_pair_witness :
    getLineType (pairLine "só me".toList "\x7b//\x7d".toList) =
        (.data, ["só me".toList, "\x7b//\x7d".toList], none) ∧
    getLineType "\"key\" \"val//ue\"".toList =
      (.data, ["key".toList, "val//ue".toList], none) :=
  getLineType_recovers_pair "só me".toList "\x7b//\x7d".toList (by decide) (by decide)

/-- C8, the code at the claim's input: on `"a"`, `{`, `}`, `}` the second `}`
finds `openSections.Len() == 1`, not `0`, so the root frame is popped, the stack
is left empty and `Parse` returns the tree `a: {}` with no error.  Only a third
`}` meets `Len() == 0` and gets the error; a header after the second `}` finds
no frame to look at and panics. -/
theorem unmatched_closer_pops_root :
    steps initState [headerLine ['a'], ['{'], ['}'], ['}']] =
      .next { heap := [[(['a'], .map 1)], []], openSections := [], lastToken := .closer,
              lineCount := 4, currentLine := ['}'] } ∧
    Parse [headerLine ['a'], ['{'], ['}'], ['}']] = .ok [[(['a'], .map 1)], []] ∧
    Parse [headerLine ['a'], ['{'], ['}'], ['}'], ['}']] = .error .unexpectedToken ∧
    Parse [headerLine ['a'], ['{'], ['}'], ['}'], headerLine ['b']] = .panic := by
  decide

theorem Trim_longBlank : Trim longBlank whitespaceCutset = [] := by
  have h : longBlank.dropWhile (fun c => whitespaceCutset.contains c) = [] := by
    rw [List.dropWhile_eq_nil_iff]
    intro x hx
    have := List.eq_of_mem_replicate hx
    subst this
    decide
  unfold Trim
  rw [h]
  rfl

/-- A line of 65536 spaces is an Empty line for the classifier. -/
theorem getLineType_longBlank : getLineType longBlank = (.empty, [], none) := by
  unfold getLineType
  rw [Trim_longBlank]
  rfl

/-- C7 as stated fails: an illegal transition does not always end `Parse` with
`unexpected token on line N`.  In `abc`, `}` the classifier rejects line 1 and
that error is returned; in a line of 65536 spaces followed by `}` the scanner
ends the loop at line 1 and the empty tree is returned with no error; in `"a"`,
`{`, `"k" "v"`, `"k"`, `{`, `"x" "y"`, `{` the tree builder fails on line 6,
before the illegal Opener of line 7 is read. -/
theorem grammar_error_preempted :
    Parse ["abc".toList, ['}']] = .error (.unableToParse 1 "unrecognised line type") ∧
    getLineType longBlank = (.empty, [], none) ∧
    Parse [longBlank, ['}']] = .ok [[]] ∧
    Parse [headerLine ['a'], ['{'], pairLine ['k'] ['v'], headerLine ['k'], ['{'],
      pairLine ['x'] ['y'], ['{']] = .panic := by
  refine ⟨by decide, getLineType_longBlank, ?_, by decide⟩
  exact Parse_long_line [] initState longBlank [['}']] rfl (by rw [len_longBlank]; decide)

/-- C7, amended. Grammar validation. The legal (previous, next) pairs are
exactly Root -> SectionHeader; SectionHeader -> Opener; Opener, Closer, DataPair
-> SectionHeader, DataPair, OpenData, Closer; OpenData -> DataPair, OpenData.
`lastToken` starts as Root and after each line holds the previous non-Empty
token.  For every input in which the loop of `Parse` reaches line `N` (no line
before it has ended the loop) and line `N` is shorter than 65536 bytes: if its
logical line is not Empty and its token is not in the set of `lastToken`,
`Parse` returns the error `unexpected token on line N`, `N` the 1-based number
of that physical line; a line whose transition is in the table never produces
that error. -/
theorem grammar_validation :
    (∀ p n : Token, n ∈ language p ↔
      (p = .root ∧ n = .section_) ∨ (p = .section_ ∧ n = .opener) ∨
      ((p = .opener ∨ p = .closer ∨ p = .data) ∧
        (n = .section_ ∨ n = .data ∨ n = .openData ∨ n = .closer)) ∨
      (p = .openData ∧ (n = .data ∨ n = .openData))) ∧
    initState.lastToken = .root ∧
    (∀ (st st2 : State) (text : Str) (t : Token) (d : List Str),
      getLineType (if st.lastToken = .openData then st.currentLine ++ text else text) =
        (t, d, none) →
      step st text = .next st2 → st2.lastToken = if t = .empty then st.lastToken else t) ∧
    (∀ (pre : List Str) (st : State) (line : Str) (rest : List Str) (t : Token)
      (d : List Str), steps initState pre = .next st → len line < maxScanTokenSize →
      getLineType
          (if st.lastToken = .openData then st.currentLine ++ dropCR line else dropCR line) =
        (t, d, none) →
      t ≠ .empty → t ∉ language st.lastToken →
      Parse (pre ++ line :: rest) = .error (.unexpectedTokenOnLine (pre.length + 1))) ∧
    (∀ (st : State) (text : Str) (t : Token) (d : List Str) (n : Nat),
      getLineType (if st.lastToken = .openData then st.currentLine ++ text else text) =
        (t, d, none) →
      t ∈ language st.lastToken →
      step st text ≠ .done (.error (.unexpectedTokenOnLine n))) := by
  refine ⟨?_, rfl, ?_, ?_, ?_⟩
  · intro p n
    cases p <;> cases n <;> simp [language]
  · intro st st2 text t d hg h
    exact step_lastToken st st2 text t d hg h
  · intro pre st line rest t d hpre hlen hg hne hl
    exact Parse_illegal_transition pre st line rest t d hpre hlen hg hne hl
  · intro st text t d n hg hl
    exact step_unexpected_only_by_table st text t d n hg hl

/-- C7 amended, at a concrete input: after `"a"`, a second header on line 2 is
not legal (SectionHeader -> SectionHeader), and `Parse` fails with `unexpected
token on line 2`. -/
theorem grammar_validation_witness :
    Parse ([headerLine ['a']] ++ headerLine ['b'] :: [['{']]) =
      .error (.unexpectedTokenOnLine ([headerLine ['a']].length + 1)) :=
  grammar_validation.2.2.2.1 [headerLine ['a']]
    { heap := [[(['a'], .map 1)], []], openSections := [.map 1, .map 0],
      lastToken := .section_, lineCount := 1, currentLine := headerLine ['a'] }
    (headerLine ['b']) [['{']] .section_ [['b']] (by decide) (by decide) (by decide)
    (by decide) (by decide)

/-- C9 as stated fails: on the single line `}` the error is the grammar error
with its line number, not the error of the Closer case; and when a line of 65536
spaces stands before the `}`, the scanner ends the loop there and `Parse`
returns the empty tree with no error at all. -/
theorem first_closer_not_structural :
    Parse [['}']] = .error (.unexpectedTokenOnLine 1) ∧
    Parse [['}']] ≠ .error .unexpectedToken ∧
    Parse [[], longBlank, ['}'], headerLine ['a']] = .ok [[]] := by
  refine ⟨by decide, by decide, ?_⟩
  exact Parse_long_line [[]]
    { heap := [[]], openSections := [.map 0], lastToken := .root, lineCount := 1,
      currentLine := [] }
    longBlank [['}'], headerLine ['a']] (by decide) (by rw [len_longBlank]; decide)

/-- Empty lines at the start of the input, each shorter than 65536 bytes, leave
the parser in its initial state, apart from the line counter. -/
theorem steps_empty_init (pre : List Str)
    (h : ∀ l ∈ pre, len l < maxScanTokenSize ∧ getLineType (dropCR l) = (.empty, [], none)) :
    steps initState pre = .next { initState with lineCount := pre.length } := by
  rw [steps_eq_feed pre (fun l hl => (h l hl).1)]
  have := feed_empty_init (pre.map dropCR) (by
    intro l hl
    obtain ⟨x, hx, e⟩ := List.mem_map.1 hl
    rw [← e]
    exact (h x hx).2) 0
  simpa using this

/-- C9, amended. For every input whose first non-Empty line is classified as
Closer (`}` between optional spaces and tabs), all lines up to it shorter than
65536 bytes, `Parse` returns no tree and fails with the syntax error `unexpected
token on line N`, `N` the 1-based number of that line: Root -> Closer is
rejected by the grammar table before the Closer case is reached. -/
theorem first_closer_is_syntax_error (pre : List Str) (line : Str) (rest : List Str)
    (hpre : ∀ l ∈ pre,
      len l < maxScanTokenSize ∧ getLineType (dropCR l) = (.empty, [], none))
    (hlen : len line < maxScanTokenSize)
    (hline : getLineType (dropCR line) = (.closer, [], none)) :
    Parse (pre ++ line :: rest) = .error (.unexpectedTokenOnLine (pre.length + 1)) :=
  Parse_illegal_transition pre _ line rest .closer [] (steps_empty_init pre hpre) hlen
    (by simpa [initState] using hline) (by decide) (by simp [initState, language])

/-- C9 amended, at a blank line and a comment line before ` }`, with more input
after it. -/
theorem first_closer_is_syntax_error_witness :
    Parse ([[], "// note".toList] ++ [' ', '}'] :: [headerLine ['a'], ['{']]) =
      .error (.unexpectedTokenOnLine ([[], "// note".toList].length + 1)) :=
  first_closer_is_syntax_error [[], "// note".toList] [' ', '}'] [headerLine ['a'], ['{']]
    (by decide) (by decide) (by decide)

/-- C10, the code at an input in which every line is classified and validated
without error and sections are open at the end: in `"a"`, `{`, `"b"`, `{`,
`"k" "v"`, `"k"`, `{`, `"k" "w"` the header `"k"` of line 6 finds the string `v`
under its key and pushes it, so after line 7 four frames are on the stack with
a string on top; line 8 is a DataPair, legal after Opener, and the type
assertion of the DataPair case panics: `Parse` returns neither the tree built so
far nor an error. -/
theorem unclosed_section_panics :
    steps initState [headerLine ['a'], ['{'], headerLine ['b'], ['{'], pairLine ['k'] ['v'],
        headerLine ['k'], ['{']] =
      .next { heap := [[(['a'], .map 1)], [(['b'], .map 2)], [(['k'], .str ['v'])]],
              openSections := [.str ['v'], .map 2, .map 1, .map 0], lastToken := .opener,
              lineCount := 7, currentLine := ['{'] } ∧
    getLineType (pairLine ['k'] ['w']) = (.data, [['k'], ['w']], none) ∧
    Token.data ∈ language .opener ∧
    Parse [headerLine ['a'], ['{'], headerLine ['b'], ['{'], pairLine ['k'] ['v'],
      headerLine ['k'], ['{'], pairLine ['k'] ['w']] = .panic := by
  decide

/-- C5. Trailing comments are discarded: for every line `L` that `getLineType`
classifies as SectionHeader or DataPair with strings `S`, and every text `T`
(quote characters included), `getLineType (L ++ " //" ++ T)` returns the same
token and the same strings `S`. -/
theorem trailing_comment_discarded (L T : Str) (t : Token) (S : List Str)
    (hL : getLineType L = (t, S, none)) (ht : t = .section_ ∨ t = .data) :
    getLineType (L ++ ' ' :: '/' :: '/' :: T) = (t, S, none) :=
  getLineType_with_comment L T t S hL ht

/-- C5 at the spec's scenario, `"key" "value" // trailing note`, with a quote in
the comment text. -/
theorem trailing_comment_discarded_witness :
    getLineType (pairLine "key".toList "value".toList ++
        ' ' :: '/' :: '/' :: " trailing \"note".toList) =
      (.data, ["key".toList, "value".toList], none) :=
  trailing_comment_discarded (pairLine "key".toList "value".toList) " trailing \"note".toList
    .data ["key".toList, "value".toList] (by decide) (by decide)

/-- A trimmed line that is not Empty, not a lone brace and leaves no string open
is classified by the number of its strings. -/
theorem getLineType_by_count (L : Str)
    (he : (len (Trim L whitespaceCutset) == 0 || hasCommentStart (Trim L whitespaceCutset) ||
      isWhitespace (Trim L whitespaceCutset)) = false)
    (ho : Trim L whitespaceCutset ≠ ['{']) (hc : Trim L whitespaceCutset ≠ ['}'])
    (hq : (parseDataLine (Trim L whitespaceCutset)).2 = false) :
    getLineType L =
      if (parseDataLine (Trim L whitespaceCutset)).1.length = 1 then
        (.section_, (parseDataLine (Trim L whitespaceCutset)).1, none)
      else if (parseDataLine (Trim L whitespaceCutset)).1.length = 2 then
        (.data, (parseDataLine (Trim L whitespaceCutset)).1, none)
      else (.unknown, [], some "unrecognised line type") := by
  unfold getLineType
  rcases hp : parseDataLine (Trim L whitespaceCutset) with ⟨split, isOpen⟩
  rw [hp] at hq
  simp only at hq
  subst hq
  have h1 : (Trim L whitespaceCutset == ['{']) = false := by simpa using ho
  have h2 : (Trim L whitespaceCutset == ['}']) = false := by simpa using hc
  simp [he, h1, h2, hp]

/-- The classifier never returns the token `root`. -/
theorem getLineType_ne_root (L : Str) : (getLineType L).1 ≠ .root := by
  unfold getLineType
  dsimp only
  rcases parseDataLine (Trim L whitespaceCutset) with ⟨split, isOpen⟩
  dsimp only
  split_ifs <;> simp

/-- A line that the classifier rejects, shorter than 65536 bytes and reached by
the loop, ends `Parse` with the error that carries the number of the physical
line. -/
theorem Parse_unclassified (pre : List Str) (st : State) (line : Str) (rest : List Str)
    (t : Token) (d : List Str) (msg : String) (hpre : steps initState pre = .next st)
    (hlen : len line < maxScanTokenSize)
    (hg : getLineType
        (if st.lastToken = .openData then st.currentLine ++ dropCR line else dropCR line) =
      (t, d, some msg)) :
    Parse (pre ++ line :: rest) = .error (.unableToParse (pre.length + 1) msg) := by
  have hc := steps_lineCount _ _ _ hpre
  simp only [initState, Nat.zero_add] at hc
  rw [Parse, steps_append, hpre]
  simp only []
  rw [steps_cons st line rest hlen]
  have : step st (dropCR line) = .done (.error (.unableToParse (pre.length + 1) msg)) := by
    unfold step
    dsimp only
    rw [hg]
    simp [hc]
  rw [this]

theorem loop_letters (n : Nat) :
    ∀ (prev : Option Char) (subs : List Str) (cur : Str),
      parseDataLineLoop prev subs cur false (List.replicate n 'x') = (subs, false) := by
  induction n with
  | zero => intro prev subs cur; simp [parseDataLineLoop]
  | succ n ih =>
    intro prev subs cur
    rw [List.replicate_succ, parseDataLineLoop]
    simp [ih]

theorem Trim_letters (n : Nat) :
    Trim (List.replicate (n + 1) 'x') whitespaceCutset = List.replicate (n + 1) 'x' := by
  unfold Trim
  have h1 : (List.replicate (n + 1) 'x').dropWhile (fun c => whitespaceCutset.contains c) =
      List.replicate (n + 1) 'x' := by
    rw [List.replicate_succ, List.dropWhile_cons_of_neg (by decide)]
  rw [h1, List.replicate_succ', List.rdropWhile_concat_neg _ _ _ (by decide)]

/-- A line of 65536 letters `x` holds no string: the classifier rejects it. -/
theorem getLineType_longWord :
    getLineType longWord = (.unknown, [], some "unrecognised line type") := by
  have e : longWord = List.replicate (65535 + 1) 'x' := rfl
  have ht : Trim longWord whitespaceCutset = 'x' :: List.replicate 65535 'x' := by
    rw [e, Trim_letters, List.replicate_succ]
  have hl : len ('x' :: List.replicate 65535 'x') = 65536 := by
    have h1 : Char.utf8Size 'x' = 1 := by decide
    rw [len_cons, len_replicate, h1]
  have hp : parseDataLine ('x' :: List.replicate 65535 'x') = ([], false) := by
    have := loop_letters (65535 + 1) none [] []
    rw [List.replicate_succ] at this
    exact this
  have hw : isWhitespace ('x' :: List.replicate 65535 'x') = false := by
    rw [isWhitespace]
    · rfl
    · intro rest h
      cases h
  have hc : hasCommentStart ('x' :: List.replicate 65535 'x') = false := by
    rw [hasCommentStart]
    intro rest h
    cases h
  unfold getLineType
  rw [ht]
  generalize List.replicate 65535 'x' = tl at hl hp hw hc
  simp [hl, hp, hw, hc]

/-- A line classified as OpenData leaves heap and stack as they are. -/
theorem step_openData_frame (st st2 : State) (text : Str) (h : step st text = .next st2)
    (ho : st2.lastToken = .openData) :
    st2.heap = st.heap ∧ st2.openSections = st.openSections := by
  unfold step at h
  dsimp only at h
  rcases hg : getLineType (if st.lastToken = .openData then st.currentLine ++ text else text)
    with ⟨t, d, e⟩
  rw [hg] at h
  cases e with
  | some msg => cases h
  | none =>
    dsimp only at h
    by_cases h1 : t = .empty
    · simp only [h1, if_true] at h
      cases h
      exact ⟨rfl, rfl⟩
    · simp only [h1, if_false] at h
      split_ifs at h
      all_goals first
        | cases h
        | (have hf := (dispatch_frame _ _ _ _ h).2.1
           simp only at hf
           rw [ho] at hf
           subst hf
           simp only [dispatch] at h
           cases h
           exact ⟨rfl, rfl⟩)

/-- C17 as stated fails in its last part: the line of 65536 letters `x` is not
Empty, is no brace, leaves no string open and holds no string, so the classifier
rejects it; but as line 3 of an input it is not delivered by the scanner, the
loop ends, and `Parse` returns the tree built so far with no error. -/
theorem long_unclassified_line_accepted :
    getLineType longWord = (.unknown, [], some "unrecognised line type") ∧
    Parse [headerLine ['s'], ['{'], longWord, ['}']] = .ok [[(['s'], .map 1)], []] := by
  refine ⟨getLineType_longWord, ?_⟩
  exact Parse_long_line [headerLine ['s'], ['{']]
    { heap := [[(['s'], .map 1)], []], openSections := [.map 1, .map 0],
      lastToken := .opener, lineCount := 2, currentLine := ['{'] }
    longWord [['}']] (by decide) (by rw [len_longWord]; decide)

/-- C17, amended. Line shape by string count: for every line that, after
trimming spaces and tabs, is not Empty, is not exactly `{` or `}` and leaves no
string open, `getLineType` returns SectionHeader with the one extracted string
iff exactly one was extracted, DataPair with the two iff exactly two, and
otherwise the error `unrecognised line type` (so for `{ // note`, `{}`, unquoted
text and `"a" "b" "c"`); it never returns Root; and when the loop of `Parse`
reaches a line that is shorter than 65536 bytes and that the classifier
rejects, `Parse` fails with the error naming the 1-based physical line
number. -/
theorem line_shape_by_string_count :
    (∀ L : Str,
      (len (Trim L whitespaceCutset) == 0 || hasCommentStart (Trim L whitespaceCutset) ||
        isWhitespace (Trim L whitespaceCutset)) = false →
      Trim L whitespaceCutset ≠ ['{'] → Trim L whitespaceCutset ≠ ['}'] →
      (parseDataLine (Trim L whitespaceCutset)).2 = false →
      (getLineType L =
        if (parseDataLine (Trim L whitespaceCutset)).1.length = 1 then
          (.section_, (parseDataLine (Trim L whitespaceCutset)).1, none)
        else if (parseDataLine (Trim L whitespaceCutset)).1.length = 2 then
          (.data, (parseDataLine (Trim L whitespaceCutset)).1, none)
        else (.unknown, [], some "unrecognised line type")) ∧
      ((getLineType L).1 = .section_ ↔ (parseDataLine (Trim L whitespaceCutset)).1.length = 1) ∧
      ((getLineType L).1 = .data ↔ (parseDataLine (Trim L whitespaceCutset)).1.length = 2) ∧
      ((getLineType L).2.2 = some "unrecognised line type" ↔
        ((parseDataLine (Trim L whitespaceCutset)).1.length ≠ 1 ∧
          (parseDataLine (Trim L whitespaceCutset)).1.length ≠ 2))) ∧
    (∀ L : Str, (getLineType L).1 ≠ .root) ∧
    (∀ (pre : List Str) (st : State) (line : Str) (rest : List Str) (t : Token)
      (d : List Str) (msg : String), steps initState pre = .next st →
      len line < maxScanTokenSize →
      getLineType
          (if st.lastToken = .openData then st.currentLine ++ dropCR line else dropCR line) =
        (t, d, some msg) →
      Parse (pre ++ line :: rest) = .error (.unableToParse (pre.length + 1) msg)) ∧
    getLineType "\x7b // note".toList = (.unknown, [], some "unrecognised line type") ∧
    getLineType "\x7b\x7d".toList = (.unknown, [], some "unrecognised line type") ∧
    getLineType "unquoted text".toList = (.unknown, [], some "unrecognised line type") ∧
    getLineType "\"a\" \"b\" \"c\"".toList = (.unknown, [], some "unrecognised line type") := by
  refine ⟨?_, getLineType_ne_root, ?_, by decide, by decide, by decide, by decide⟩
  · intro L he ho hc hq
    have h := getLineType_by_count L he ho hc hq
    refine ⟨h, ?_, ?_, ?_⟩
    · rw [h]
      split_ifs <;> simp_all
    · rw [h]
      split_ifs <;> simp_all
    · rw [h]
      split_ifs <;> simp_all
  · intro pre st line rest t d msg hpre hlen hg
    exact Parse_unclassified pre st line rest t d msg hpre hlen hg

/-- C17 amended, at the line `"a" "b" "c"` on line 3 of an input: three strings,
so the classifier rejects it and `Parse` fails naming line 3. -/
theorem line_shape_by_string_count_witness :
    ((getLineType "\"a\" \"b\" \"c\"".toList).2.2 = some "unrecognised line type" ↔
      ((parseDataLine (Trim "\"a\" \"b\" \"c\"".toList whitespaceCutset)).1.length ≠ 1 ∧
        (parseDataLine (Trim "\"a\" \"b\" \"c\"".toList whitespaceCutset)).1.length ≠ 2)) ∧
    Parse ([headerLine ['s'], ['{']] ++ "\"a\" \"b\" \"c\"".toList :: [['}']]) =
      .error (.unableToParse ([headerLine ['s'], ['{']].length + 1) "unrecognised line type") :=
  ⟨(line_shape_by_string_count.1 "\"a\" \"b\" \"c\"".toList (by decide) (by decide)
      (by decide) (by decide)).2.2.2,
    line_shape_by_string_count.2.2.1 [headerLine ['s'], ['{']]
      { heap := [[(['s'], .map 1)], []], openSections := [.map 1, .map 0],
        lastToken := .opener, lineCount := 2, currentLine := ['{'] }
      "\"a\" \"b\" \"c\"".toList [['}']] .unknown [] "unrecognised line type"
      (by decide) (by decide) (by decide)⟩

/-- A line whose characters all belong to the class `\s` matches the pattern of
`isWhitespace`. -/
theorem isWhitespace_of_spaces (s : Str) (h : ∀ c ∈ s, isRegexpSpace c = true) :
    isWhitespace s = true := by
  induction s using isWhitespace.induct with
  | case1 => rfl
  | case2 rest ih =>
    have := h '\xEF' (List.mem_cons_self _ _)
    simp [isRegexpSpace] at this
  | case3 c rest hne ih =>
    rw [isWhitespace]
    · simp only [Bool.and_eq_true]
      exact ⟨h c (List.mem_cons_self _ _), ih (fun x hx => h x (List.mem_cons_of_mem _ hx))⟩
    · exact hne

/-- The lines that do classify as Empty: empty after trimming, beginning with
`//`, or matching the pattern of `isWhitespace`, such as a line of `\s`
characters. -/
theorem getLineType_empty_cases (L : Str)
    (h : Trim L whitespaceCutset = [] ∨ hasCommentStart (Trim L whitespaceCutset) = true ∨
      isWhitespace (Trim L whitespaceCutset) = true ∨
      ∀ c ∈ Trim L whitespaceCutset, isRegexpSpace c = true) :
    getLineType L = (.empty, [], none) := by
  have hc : (len (Trim L whitespaceCutset) == 0 || hasCommentStart (Trim L whitespaceCutset) ||
      isWhitespace (Trim L whitespaceCutset)) = true := by
    rcases h with h | h | h | h
    · simp [h, len]
    · simp [h]
    · simp [h]
    · simp [isWhitespace_of_spaces _ h]
  unfold getLineType
  simp only [hc, if_true]

/-- C18, the code at a line that holds only the byte-order mark U+FEFF (bytes
EF BB BF): the pattern of `isWhitespace` does not match it (in Go's regexp the
escapes `\xEF\xBB\xBF` are the code points U+00EF U+00BB U+00BF, which it does
match), so `getLineType` returns the error `unrecognised line type` instead of
Empty and `Parse` fails on that line. -/
theorem bom_line_not_empty :
    isWhitespace ['\uFEFF'] = false ∧
    isWhitespace ['\u00EF', '\u00BB', '\u00BF'] = true ∧
    getLineType ['\uFEFF'] = (.unknown, [], some "unrecognised line type") ∧
    getLineType [' ', '\uFEFF', '\t'] = (.unknown, [], some "unrecognised line type") ∧
    Parse [headerLine ['a'], ['{'], ['\uFEFF'], ['}']] =
      .error (.unableToParse 3 "unrecognised line type") := by
  decide

/-- C19, the code at two inputs. In `"a"`, `{`, `"k" "v"`, `"k"`, `{`, `"x" "y"`
the header `"k"` finds the string `v` under its key and pushes it, so the data
pair is dispatched with a string on top of the stack and the type assertion
panics.  In `"a"`, `{`, `}`, `}`, then `"b"` or `"x" "y"`, the second `}` has
popped the root frame, `Peek` gives nil and the type assertion panics. -/
theorem tree_builder_panics :
    steps initState [headerLine ['a'], ['{'], pairLine ['k'] ['v'], headerLine ['k'], ['{']] =
      .next { heap := [[(['a'], .map 1)], [(['k'], .str ['v'])]],
              openSections := [.str ['v'], .map 1, .map 0], lastToken := .opener,
              lineCount := 5, currentLine := ['{'] } ∧
    Parse [headerLine ['a'], ['{'], pairLine ['k'] ['v'], headerLine ['k'], ['{'],
      pairLine ['x'] ['y']] = .panic ∧
    Parse [headerLine ['a'], ['{'], pairLine ['k'] ['v'], headerLine ['k'], ['{'],
      headerLine ['x']] = .panic ∧
    Parse [headerLine ['a'], ['{'], ['}'], ['}'], headerLine ['b']] = .panic ∧
    Parse [headerLine ['a'], ['{'], ['}'], ['}'], pairLine ['x'] ['y']] = .panic := by
  decide

/-- C11 as stated fails: on `"a"`, `{`, `"k" "v` the loop ends with `lastToken`
OpenData, and `Parse` returns a tree, the one without the unterminated pair. -/
theorem openData_is_terminal :
    steps initState [headerLine ['a'], ['{'], openPairLine ['k'] ['v']] =
      .next { heap := [[(['a'], .map 1)], []], openSections := [.map 1, .map 0],
              lastToken := .openData, lineCount := 3,
              currentLine := openPairLine ['k'] ['v'] } ∧
    Parse [headerLine ['a'], ['{'], openPairLine ['k'] ['v']] = .ok [[(['a'], .map 1)], []] := by
  decide

/-- C11, amended. OpenData can be the token state at the end of the input:
`Parse` has no check after its loop, so for every input whose lines are all
processed by the loop without failure and that ends while a quoted string is
unterminated, `Parse` returns the tree built so far with no error; a line
classified as OpenData stores nothing (heap and stack stay as they are), so the
unterminated pair is not in the tree.  For all plain `n`, `k` and quote-free
`v1`, the lines shorter than 65536 bytes, the input `"n"`, `{`, `"k" "v1` ends in
OpenData and returns `n → {}`. -/
theorem openData_accepted_at_end :
    (∀ (lines : List Str) (st : State), steps initState lines = .next st →
      st.lastToken = .openData → Parse lines = .ok st.heap) ∧
    (∀ (st st2 : State) (text : Str), step st text = .next st2 →
      st2.lastToken = .openData →
      st2.heap = st.heap ∧ st2.openSections = st.openSections) ∧
    (∀ n k v1 : Str, Plain n → Plain k → '"' ∉ v1 →
      len (headerLine n) < maxScanTokenSize → len (openPairLine k v1) < maxScanTokenSize →
      steps initState [headerLine n, ['{'], openPairLine k v1] =
        .next { heap := [[(n, .map 1)], []], openSections := [.map 1, .map 0],
                lastToken := .openData, lineCount := 3,
                currentLine := dropCR (openPairLine k v1) } ∧
      Parse [headerLine n, ['{'], openPairLine k v1] = .ok [[(n, .map 1)], []]) := by
  refine ⟨?_, ?_, ?_⟩
  · intro lines st h _
    simp [Parse, h]
  · intro st st2 text h ho
    exact step_openData_frame st st2 text h ho
  · intro n k v1 hn hk hv hl1 hl2
    have e3 : dropCR ['{'] = ['{'] := by decide
    have hv2 : '"' ∉ dropCR v1 := fun h => hv (mem_of_mem_dropCR h)
    have hs : steps initState [headerLine n, ['{'], openPairLine k v1] =
        .next { heap := [[(n, .map 1)], []], openSections := [.map 1, .map 0],
                lastToken := .openData, lineCount := 3,
                currentLine := dropCR (openPairLine k v1) } := by
      rw [steps_eq_feed _ (by
        intro l hl
        simp only [List.mem_cons, List.mem_singleton, List.not_mem_nil, or_false] at hl
        rcases hl with e | e | e <;> subst e
        · exact hl1
        · decide
        · exact hl2)]
      simp [feed, step, initState, getLineType_headerLine n hn, getLineType_opener,
        dropCR_headerLine, e3, dropCR_openPairLine,
        getLineType_openPairLine k (dropCR v1) hk hv2, dispatch, language, Heap.store,
        GoMap.get, GoMap.put]
    exact ⟨hs, by simp [Parse, hs]⟩

/-- C11 amended, at an input that ends inside the value of `key`. -/
theorem openData_accepted_at_end_witness :
    steps initState [headerLine "s".toList, ['{'], openPairLine "key".toList "open".toList] =
        .next { heap := [[("s".toList, .map 1)], []], openSections := [.map 1, .map 0],
                lastToken := .openData, lineCount := 3,
                currentLine := dropCR (openPairLine "key".toList "open".toList) } ∧
    Parse [headerLine "s".toList, ['{'], openPairLine "key".toList "open".toList] =
      .ok [[("s".toList, .map 1)], []] :=
  openData_accepted_at_end.2.2 "s".toList "key".toList "open".toList
    (by decide) (by decide) (by decide) (by decide) (by decide)

/-! ## Last write wins -/

/-- The scan ends inside a string exactly when the scanned part holds an odd
number of unescaped quotes (or an even number, when it started inside one). -/
theorem loop_open_iff_odd (line : Str) :
    ∀ (prev : Option Char) (subs : List Str) (cur : Str) (q : Bool),
      (parseDataLineLoop prev subs cur q line).2 =
        xor q (decide (unescapedQuotes prev (scannedPart prev q line) % 2 = 1)) := by
  induction line with
  | nil => intro prev subs cur q; simp [parseDataLineLoop, scannedPart, unescapedQuotes]
  | cons c rest ih =>
    intro prev subs cur q
    rw [parseDataLineLoop, scannedPart]
    by_cases hb : (!q && c == '/' && rest.head? == some '/') = true
    · simp [hb, unescapedQuotes]
    · rw [if_neg hb, if_neg hb]
      by_cases hq : (c == '"' && prev != some '\\') = true
      · rw [if_pos hq, if_pos hq]
        simp only [unescapedQuotes, hq, if_true]
        have e : ∀ n : Nat, decide ((1 + n) % 2 = 1) = !decide (n % 2 = 1) := by
          intro n
          by_cases h : n % 2 = 1
          · have : (1 + n) % 2 ≠ 1 := by omega
            simp [h, this]
          · have : (1 + n) % 2 = 1 := by omega
            simp [h, this]
        rw [e]
        cases q
        · simp only [Bool.false_eq_true, if_false]
          rw [ih]
          simp
        · simp only [if_true]
          rw [ih]
          simp
      · rw [if_neg hq, if_neg hq]
        simp only [unescapedQuotes, hq, Bool.false_eq_true, if_false, Nat.zero_add]
        split_ifs <;> exact ih _ _ _ _

/-- Without `//` in the text the whole text is scanned. -/
theorem scannedPart_of_no_comment (line : Str) (h : containsComment line = false) :
    ∀ (prev : Option Char) (q : Bool), scannedPart prev q line = line := by
  induction line with
  | nil => intro prev q; rfl
  | cons c rest ih =>
    intro prev q
    simp only [containsComment, Bool.or_eq_false_iff] at h
    rw [scannedPart]
    have hb : ¬ ((!q && c == '/' && rest.head? == some '/') = true) := by
      intro hb
      simp only [Bool.and_eq_true] at hb
      have := h.1
      simp [hb.1.2, hb.2] at this
    rw [if_neg hb, ih h.2]

/-- A line that is neither Empty nor a lone brace is classified from its scan. -/
theorem getLineType_of_scan (L : Str) (h1 : (getLineType L).1 ≠ .empty)
    (h2 : (getLineType L).1 ≠ .opener) (h3 : (getLineType L).1 ≠ .closer) :
    getLineType L =
      if (parseDataLine (Trim L whitespaceCutset)).2 = true then (.openData, [], none)
      else if (parseDataLine (Trim L whitespaceCutset)).1.length = 1 then
        (.section_, (parseDataLine (Trim L whitespaceCutset)).1, none)
      else if (parseDataLine (Trim L whitespaceCutset)).1.length = 2 then
        (.data, (parseDataLine (Trim L whitespaceCutset)).1, none)
      else (.unknown, [], some "unrecognised line type") := by
  unfold getLineType at h1 h2 h3 ⊢
  dsimp only at h1 h2 h3 ⊢
  rcases hp : parseDataLine (Trim L whitespaceCutset) with ⟨split, isOpen⟩
  rw [hp] at h1 h2 h3
  dsimp only at h1 h2 h3 ⊢
  split_ifs at h1 h2 h3 ⊢ <;> simp_all

/-- The classification of a scanned line in terms of the parity of the quotes
in its scanned part. -/
theorem getLineType_openData_iff (L : Str) (h1 : (getLineType L).1 ≠ .empty)
    (h2 : (getLineType L).1 ≠ .opener) (h3 : (getLineType L).1 ≠ .closer) :
    ((getLineType L).1 = .openData ↔
      unescapedQuotes none (scannedPart none false (Trim L whitespaceCutset)) % 2 = 1) ∧
    (unescapedQuotes none (scannedPart none false (Trim L whitespaceCutset)) % 2 = 0 →
      (getLineType L).1 = .section_ ∨ (getLineType L).1 = .data ∨
        getLineType L = (.unknown, [], some "unrecognised line type")) := by
  have h := getLineType_of_scan L h1 h2 h3
  have hodd : (parseDataLine (Trim L whitespaceCutset)).2 =
      decide (unescapedQuotes none (scannedPart none false (Trim L whitespaceCutset)) % 2 = 1) := by
    unfold parseDataLine
    rw [loop_open_iff_odd]
    simp
  constructor
  · rw [h, hodd]
    split_ifs <;> simp_all
  · intro he
    have : (parseDataLine (Trim L whitespaceCutset)).2 = false := by
      rw [hodd]
      simp [he]
    rw [h, this]
    split_ifs <;> simp_all

/-- C16 as stated fails: the line `"a" // "` is not Empty and not a lone brace
and holds three unescaped quotes, an odd number, yet it is classified as
SectionHeader: the third quote stands in the trailing comment, which is not
scanned. -/
theorem odd_quotes_not_openData :
    unescapedQuotes none quoteInComment % 2 = 1 ∧
    getLineType quoteInComment = (.section_, [['a']], none) ∧
    (getLineType quoteInComment).1 ≠ .openData := by
  decide

/-- C16, amended. For every line that is not classified as Empty and is not a
lone brace, `getLineType` returns OpenData exactly when the scanned part of the
trimmed line, the part before the first `//` outside a quoted string, contains
an odd number of unescaped double quotes (quotes not immediately preceded by a
backslash); when that number is even it returns SectionHeader, DataPair or the
error, never OpenData; for a line without `//` the scanned part is the whole
trimmed line. -/
theorem openData_iff_odd_scanned_quotes (L : Str) (h1 : (getLineType L).1 ≠ .empty)
    (h2 : (getLineType L).1 ≠ .opener) (h3 : (getLineType L).1 ≠ .closer) :
    ((getLineType L).1 = .openData ↔
      unescapedQuotes none (scannedPart none false (Trim L whitespaceCutset)) % 2 = 1) ∧
    (unescapedQuotes none (scannedPart none false (Trim L whitespaceCutset)) % 2 = 0 →
      (getLineType L).1 = .section_ ∨ (getLineType L).1 = .data ∨
        getLineType L = (.unknown, [], some "unrecognised line type")) ∧
    (containsComment (Trim L whitespaceCutset) = false →
      ((getLineType L).1 = .openData ↔
        unescapedQuotes none (Trim L whitespaceCutset) % 2 = 1)) := by
  obtain ⟨ha, hb⟩ := getLineType_openData_iff L h1 h2 h3
  refine ⟨ha, hb, ?_⟩
  intro hc
  rw [ha, scannedPart_of_no_comment _ hc]

/-- C16 amended, at the line `"key" "open // text`: three unescaped quotes, the
`//` stands inside the open string, and the line is OpenData. -/
theorem openData_iff_odd_scanned_quotes_witness :
    ((getLineType "\"key\" \"open // text".toList).1 = .openData ↔
      unescapedQuotes none (scannedPart none false
        (Trim "\"key\" \"open // text".toList whitespaceCutset)) % 2 = 1) ∧
    (unescapedQuotes none (scannedPart none false
        (Trim "\"key\" \"open // text".toList whitespaceCutset)) % 2 = 0 →
      (getLineType "\"key\" \"open // text".toList).1 = .section_ ∨
        (getLineType "\"key\" \"open // text".toList).1 = .data ∨
        getLineType "\"key\" \"open // text".toList =
          (.unknown, [], some "unrecognised line type")) ∧
    (containsComment (Trim "\"key\" \"open // text".toList whitespaceCutset) = false →
      ((getLineType "\"key\" \"open // text".toList).1 = .openData ↔
        unescapedQuotes none (Trim "\"key\" \"open // text".toList whitespaceCutset) % 2 = 1)) :=
  openData_iff_odd_scanned_quotes "\"key\" \"open // text".toList (by decide) (by decide)
    (by decide)

/-! ## Empty lines are transparent -/

/-- The `switch` does not read the line counter. -/
theorem dispatch_core (st : State) (n : Nat) (t : Token) (d : List Str)
    (ht : st.lastToken = t) :
    (dispatch { st with lineCount := n } t d).core = (dispatch st t d).core := by
  subst ht
  unfold dispatch
  dsimp only
  repeat' split
  all_goals rfl

/-- An iteration depends on the state only through its core, up to line
numbers. -/
theorem step_core (st : State) (x : Str) : (step st.core x).core = (step st x).core := by
  have hl : st.core.lastToken = st.lastToken := rfl
  have hcur : (if st.core.lastToken = .openData then st.core.currentLine ++ x else x) =
      (if st.lastToken = .openData then st.currentLine ++ x else x) := by
    simp only [hl]
    split_ifs with h
    · simp [State.core, h]
    · rfl
  unfold step
  dsimp only
  rw [hcur]
  rcases getLineType (if st.lastToken = .openData then st.currentLine ++ x else x)
    with ⟨t, d, e⟩
  cases e with
  | some msg => rfl
  | none =>
    dsimp only
    by_cases h1 : t = .empty
    · simp only [h1, if_true]
      simp [Step.core, State.core]
    · simp only [h1, if_false, hl]
      by_cases h2 : t ∈ language st.lastToken
      · simp only [h2, not_true_eq_false, if_false]
        exact dispatch_core
          { heap := st.heap, openSections := st.openSections, lastToken := t,
            lineCount := st.lineCount + 1,
            currentLine := if st.lastToken = .openData then st.currentLine ++ x else x }
          (0 + 1) t d rfl
      · simp only [h2, not_false_eq_true, if_true]
        rfl

theorem core_core (st : State) : st.core.core = st.core := by
  unfold State.core
  by_cases h : st.lastToken = .openData <;> simp [h]

theorem steps_core (xs : List Str) :
    ∀ st : State, (steps st.core xs).core = (steps st xs).core := by
  induction xs with
  | nil => intro st; simp [steps, Step.core, core_core]
  | cons x xs ih =>
    intro st
    by_cases hx : maxScanTokenSize ≤ len x
    · rw [steps_cons_long _ x xs hx, steps_cons_long _ x xs hx]
      rfl
    · rw [steps_cons _ x xs (Nat.not_le.1 hx), steps_cons _ x xs (Nat.not_le.1 hx)]
      have h := step_core st (dropCR x)
      cases h1 : step st (dropCR x) with
      | next st1 =>
        cases h2 : step st.core (dropCR x) with
        | next st2 =>
          rw [h1, h2] at h
          simp only [Step.core, Step.next.injEq] at h
          simp only []
          rw [← ih st2, h, ih st1]
        | done o => rw [h1, h2] at h; simp [Step.core] at h
      | done o =>
        cases h2 : step st.core (dropCR x) with
        | next st2 => rw [h1, h2] at h; simp [Step.core] at h
        | done o2 =>
          rw [h1, h2] at h
          simpa [Step.core] using h

theorem outcome_core (s : Step) : s.core.outcome = s.outcome.eraseLine := by
  cases s <;> rfl

theorem ok_iff_of_eraseLine {o1 o2 : Outcome} (h : o1.eraseLine = o2.eraseLine) (t : Heap) :
    o1 = .ok t ↔ o2 = .ok t := by
  cases o1 <;> cases o2 <;> simp_all [Outcome.eraseLine]

theorem dropWhile_concat_neg (p : Char → Bool) (a : Str) (c : Char) (hc : ¬ p c = true) :
    (a ++ [c]).dropWhile p = a.dropWhile p ++ [c] := by
  induction a with
  | nil => simp [List.dropWhile, hc]
  | cons x a ih =>
    by_cases hx : p x = true
    · rw [List.cons_append, List.dropWhile_cons_of_pos hx, List.dropWhile_cons_of_pos hx, ih]
    · rw [List.cons_append, List.dropWhile_cons_of_neg hx, List.dropWhile_cons_of_neg hx]
      rfl

/-- A text that matches the whitespace pattern still matches it without its last
character, when that is of the class `\s`. -/
theorem isWhitespace_dropLast (s : Str) (c : Char) (hc : isRegexpSpace c = true) :
    isWhitespace (s ++ [c]) = true → isWhitespace s = true := by
  induction s using isWhitespace.induct with
  | case1 => intro _; rfl
  | case2 rest ih =>
    intro h
    simp only [List.cons_append, isWhitespace] at h ⊢
    exact ih h
  | case3 c0 rest hne ih =>
    intro h
    have hne2 : ∀ r, c0 = '\xEF' → rest ++ [c] = '\xBB' :: '\xBF' :: r → False := by
      intro r e0 e
      cases rest with
      | nil => simp at e
      | cons r1 rest1 =>
        cases rest1 with
        | nil =>
          simp only [List.cons_append, List.nil_append, List.cons.injEq] at e
          obtain ⟨-, e3, -⟩ := e
          subst e3
          exact absurd hc (by decide)
        | cons r2 rest2 =>
          simp only [List.cons_append, List.cons.injEq] at e
          obtain ⟨e2, e3, -⟩ := e
          exact hne rest2 e0 (by rw [e2, e3])
    rw [List.cons_append, isWhitespace] at h
    · simp only [Bool.and_eq_true] at h
      rw [isWhitespace]
      · simp only [Bool.and_eq_true]
        exact ⟨h.1, ih h.2⟩
      · exact hne
    · exact hne2

theorem isWhitespace_rdropWhile (y : Str) :
    isWhitespace y = true →
      isWhitespace (y.rdropWhile (fun c => whitespaceCutset.contains c)) = true := by
  induction y using List.reverseRecOn with
  | nil => intro h; simpa using h
  | append_singleton s c ih =>
    intro h
    by_cases hc : (whitespaceCutset.contains c) = true
    · rw [List.rdropWhile_concat_pos _ _ _ hc]
      have hsp : isRegexpSpace c = true := by
        simp only [whitespaceCutset, List.contains_cons, List.contains_nil, Bool.or_false,
          Bool.or_eq_true, beq_iff_eq] at hc
        rcases hc with e | e <;> subst e <;> decide
      exact ih (isWhitespace_dropLast s c hsp h)
    · rw [List.rdropWhile_concat_neg _ _ _ hc]
      exact h

/-- The classifier returns Empty exactly by its first test. -/
theorem getLineType_empty_iff (L : Str) :
    getLineType L = (.empty, [], none) ↔
      (len (Trim L whitespaceCutset) == 0 || hasCommentStart (Trim L whitespaceCutset) ||
        isWhitespace (Trim L whitespaceCutset)) = true := by
  unfold getLineType
  dsimp only
  rcases parseDataLine (Trim L whitespaceCutset) with ⟨split, isOpen⟩
  dsimp only
  split_ifs <;> simp_all

/-- A line that the classifier takes as Empty is also Empty without a carriage
return at its end, which is how the scanner delivers it. -/
theorem getLineType_empty_dropCR (e : Str) (h : getLineType e = (.empty, [], none)) :
    getLineType (dropCR e) = (.empty, [], none) := by
  rcases List.eq_nil_or_concat e with he | ⟨x, c, he⟩
  · subst he
    exact h
  · rw [List.concat_eq_append] at he
    subst he
    by_cases hc : c = '\r'
    · subst hc
      rw [dropCR_concat_cr]
      rw [getLineType_empty_iff] at h ⊢
      have hT : Trim (x ++ ['\r']) whitespaceCutset =
          x.dropWhile (fun c => whitespaceCutset.contains c) ++ ['\r'] := by
        unfold Trim
        rw [dropWhile_concat_neg _ _ _ (by decide), List.rdropWhile_concat_neg _ _ _ (by decide)]
      have hx : Trim x whitespaceCutset =
          (x.dropWhile (fun c => whitespaceCutset.contains c)).rdropWhile
            (fun c => whitespaceCutset.contains c) := rfl
      rw [hT] at h
      rw [hx]
      generalize x.dropWhile (fun c => whitespaceCutset.contains c) = y at h ⊢
      simp only [Bool.or_eq_true] at h ⊢
      rcases h with (h | h) | h
      · exfalso
        have h1 : Char.utf8Size '\r' = 1 := by decide
        simp only [beq_iff_eq, len_append, len_cons, h1] at h
        omega
      · refine Or.inl (Or.inr ?_)
        cases y with
        | nil => exact absurd h (by decide)
        | cons a y1 =>
          cases y1 with
          | nil =>
            rw [List.cons_append, List.nil_append, hasCommentStart_cons2] at h
            simp only [Bool.and_eq_true, beq_iff_eq] at h
            exact absurd h.2 (by decide)
          | cons b y2 =>
            rw [List.cons_append, List.cons_append, hasCommentStart_cons2] at h
            simp only [Bool.and_eq_true, beq_iff_eq] at h
            obtain ⟨ha, hb⟩ := h
            subst ha hb
            have := rdropWhile_append_guard (fun c => whitespaceCutset.contains c) ['/'] y2 '/'
              (by decide)
            simp only [List.singleton_append] at this
            rw [this, hasCommentStart_cons2]
            rfl
      · exact Or.inr (isWhitespace_rdropWhile y (isWhitespace_dropLast y '\r' (by decide) h))
    · rw [dropCR_concat x c hc]
      exact h

/-- Inserting an Empty line, shorter than 65536 bytes, where no continuation is
pending changes the result of `Parse` at most in the line number of its
error. -/
theorem Parse_insert_empty (pre : List Str) (e : Str) (post : List Str)
    (hlen : len e < maxScanTokenSize) (he : getLineType (dropCR e) = (.empty, [], none))
    (hpos : ∀ st, steps initState pre = .next st → st.lastToken ≠ .openData) :
    (Parse (pre ++ e :: post)).eraseLine = (Parse (pre ++ post)).eraseLine := by
  rw [Parse_eq_outcome, Parse_eq_outcome, steps_append, steps_append]
  cases hs : steps initState pre with
  | done o => rfl
  | next st =>
    have h0 := hpos st hs
    simp only []
    rw [steps_cons st e post hlen, step_empty st (dropCR e) h0 he]
    simp only []
    rw [← outcome_core, ← outcome_core, ← steps_core, ← steps_core post st]
    have : State.core { st with lineCount := st.lineCount + 1, currentLine := [] } = st.core := by
      simp [State.core, h0]
    rw [this]

/-- C13 as stated fails: a line of 65536 spaces is Empty for `getLineType`, but
inserted after `"a"`, `{` it is not delivered by the scanner; the loop ends
there and `Parse` returns `a -> {}` instead of `a -> {k: v}`. -/
theorem long_blank_line_not_transparent :
    getLineType longBlank = (.empty, [], none) ∧
    Parse ([headerLine ['a'], ['{']] ++ [pairLine ['k'] ['v'], ['}']]) =
      .ok [[(['a'], .map 1)], [(['k'], .str ['v'])]] ∧
    Parse ([headerLine ['a'], ['{']] ++ longBlank :: [pairLine ['k'] ['v'], ['}']]) =
      .ok [[(['a'], .map 1)], []] := by
  refine ⟨getLineType_longBlank, by decide, ?_⟩
  exact Parse_long_line [headerLine ['a'], ['{']]
    { heap := [[(['a'], .map 1)], []], openSections := [.map 1, .map 0],
      lastToken := .opener, lineCount := 2, currentLine := ['{'] }
    longBlank [pairLine ['k'] ['v'], ['}']] (by decide) (by rw [len_longBlank]; decide)

/-- C13, amended. Empty lines shorter than 65536 bytes are transparent: for
every input `pre ++ post` and a position after `pre` at which the previous
non-Empty token is not OpenData (the very start included), inserting a physical
line `e` shorter than 65536 bytes that `getLineType` classifies as Empty (it
then does so too for the line as the scanner delivers it, without a carriage
return at its end) does not change the outcome: `Parse` returns a tree on the new input iff it
returns the same tree on the old one (and fails or panics alike, up to the line
number in the error), and when the loop reaches the inserted line, the token
state, the heap and the stack after it are those before it. -/
theorem empty_lines_transparent (pre : List Str) (e : Str) (post : List Str)
    (hlen : len e < maxScanTokenSize) (he0 : getLineType e = (.empty, [], none))
    (hpos : ∀ st, steps initState pre = .next st → st.lastToken ≠ .openData) :
    (∀ t : Heap, Parse (pre ++ e :: post) = .ok t ↔ Parse (pre ++ post) = .ok t) ∧
    (Parse (pre ++ e :: post)).eraseLine = (Parse (pre ++ post)).eraseLine ∧
    (∀ st, steps initState pre = .next st →
      ∃ st2, steps initState (pre ++ [e]) = .next st2 ∧ st2.lastToken = st.lastToken ∧
        st2.heap = st.heap ∧ st2.openSections = st.openSections) := by
  have he := getLineType_empty_dropCR e he0
  have h := Parse_insert_empty pre e post hlen he hpos
  refine ⟨fun t => ok_iff_of_eraseLine h t, h, ?_⟩
  intro st hs
  refine ⟨{ st with lineCount := st.lineCount + 1, currentLine := [] }, ?_, rfl, rfl, rfl⟩
  rw [steps_append, hs]
  simp only []
  rw [steps_cons st e [] hlen, step_empty st (dropCR e) (hpos st hs) he]
  rfl

/-- C13 amended, at a comment line inserted after `"a"`, `{`. -/
theorem empty_lines_transparent_witness :
    (∀ t : Heap,
      Parse ([headerLine ['a'], ['{']] ++ "// note".toList :: [pairLine ['k'] ['v'], ['}']]) =
          .ok t ↔
        Parse ([headerLine ['a'], ['{']] ++ [pairLine ['k'] ['v'], ['}']]) = .ok t) ∧
    (Parse ([headerLine ['a'], ['{']] ++
        "// note".toList :: [pairLine ['k'] ['v'], ['}']])).eraseLine =
      (Parse ([headerLine ['a'], ['{']] ++ [pairLine ['k'] ['v'], ['}']])).eraseLine ∧
    (∀ st, steps initState [headerLine ['a'], ['{']] = .next st →
      ∃ st2, steps initState ([headerLine ['a'], ['{']] ++ ["// note".toList]) = .next st2 ∧
        st2.lastToken = st.lastToken ∧ st2.heap = st.heap ∧
        st2.openSections = st.openSections) :=
  empty_lines_transparent [headerLine ['a'], ['{']] "// note".toList
    [pairLine ['k'] ['v'], ['}']] (by decide) (by decide)
    (fun st hs => by
      have e : steps initState [headerLine ['a'], ['{']] =
          .next { heap := [[(['a'], .map 1)], []], openSections := [.map 1, .map 0],
                  lastToken := .opener, lineCount := 2, currentLine := ['{'] } := by decide
      rw [e] at hs
      cases hs
      decide)

/-! ## Icon paths -/

theorem dropLeading_append (lead t : Str) : dropLeading lead (lead ++ t) = some t := by
  induction lead with
  | nil => cases t <;> rfl
  | cons p ps ih => simp [dropLeading, ih]

theorem TrimLeading_append (lead t : Str) : TrimLeading (lead ++ t) lead = t := by
  simp [TrimLeading, dropLeading_append]

theorem Split_ne_nil (s : Str) : Split s ≠ [] := by
  induction s with
  | nil => simp [Split]
  | cons c rest ih =>
    rw [Split]
    split_ifs
    · simp
    · cases h : Split rest with
      | nil => exact absurd h ih
      | cons hd tl => simp

/-- No piece of a split holds an underscore. -/
theorem Split_pieces (s : Str) : ∀ x ∈ Split s, '_' ∉ x := by
  induction s with
  | nil => simp [Split]
  | cons c rest ih =>
    rw [Split]
    split_ifs with hc
    · intro x hx
      rcases List.mem_cons.1 hx with hx | hx
      · simp [hx]
      · exact ih x hx
    · cases h : Split rest with
      | nil => exact absurd h (Split_ne_nil rest)
      | cons hd tl =>
        rw [h] at ih
        intro x hx
        rcases List.mem_cons.1 hx with hx | hx
        · subst hx
          intro hm
          rcases List.mem_cons.1 hm with hm | hm
          · exact hc hm.symm
          · exact ih hd (List.mem_cons_self _ _) hm
        · exact ih x (List.mem_cons_of_mem _ hx)

/-- Joining the pieces of a split gives the string back. -/
theorem Join_Split (s : Str) : Join (Split s) = s := by
  induction s with
  | nil => simp [Split, Join]
  | cons c rest ih =>
    rw [Split]
    split_ifs with hc
    · subst hc
      cases h : Split rest with
      | nil => exact absurd h (Split_ne_nil rest)
      | cons hd tl =>
        rw [h] at ih
        simp [Join, ih]
    · cases h : Split rest with
      | nil => exact absurd h (Split_ne_nil rest)
      | cons hd tl =>
        rw [h] at ih
        cases tl with
        | nil =>
          simp only [Join] at ih ⊢
          rw [ih]
        | cons b tl =>
          simp only [Join] at ih ⊢
          rw [← ih]
          rfl

/-- Splitting a text that starts with an underscore-free piece and an
underscore. -/
theorem Split_first (x y : Str) (hx : '_' ∉ x) : Split (x ++ '_' :: y) = x :: Split y := by
  induction x with
  | nil => simp [Split]
  | cons c x ih =>
    simp only [List.mem_cons, not_or] at hx
    have hc : ¬ c = '_' := fun e => hx.1 e.symm
    rw [List.cons_append, Split, if_neg hc, ih hx.2]

theorem Split_single (x : Str) (hx : '_' ∉ x) : Split x = [x] := by
  induction x with
  | nil => rfl
  | cons c x ih =>
    simp only [List.mem_cons, not_or] at hx
    have hc : ¬ c = '_' := fun e => hx.1 e.symm
    rw [Split, if_neg hc, ih hx.2]

/-- Splitting joined pieces followed by an underscore and more text. -/
theorem Split_Join_append (cs : List Str) (y : Str) (hne : cs ≠ [])
    (hcs : ∀ x ∈ cs, '_' ∉ x) : Split (Join cs ++ '_' :: y) = cs ++ Split y := by
  induction cs with
  | nil => exact absurd rfl hne
  | cons a rest ih =>
    cases rest with
    | nil =>
      simp only [Join]
      rw [Split_first a y (hcs a (List.mem_cons_self _ _))]
      rfl
    | cons b rest =>
      simp only [Join, List.append_assoc, List.cons_append]
      rw [Split_first a _ (hcs a (List.mem_cons_self _ _)),
        ih (by simp) (fun x hx => hcs x (List.mem_cons_of_mem _ hx))]
      rfl

theorem Join_append (A B : List Str) (hA : A ≠ []) (hB : B ≠ []) :
    Join (A ++ B) = Join A ++ '_' :: Join B := by
  induction A with
  | nil => exact absurd rfl hA
  | cons a rest ih =>
    cases rest with
    | nil =>
      cases B with
      | nil => exact absurd rfl hB
      | cons b B => simp [Join]
    | cons a2 rest =>
      have e1 : Join (a :: a2 :: rest ++ B) = a ++ '_' :: Join (a2 :: rest ++ B) := rfl
      have e2 : Join (a :: a2 :: rest) = a ++ '_' :: Join (a2 :: rest) := rfl
      rw [e1, e2, ih (by simp)]
      simp

/-- A proper leading part of the pieces joins to something else than all of
them, when the whole is not empty. -/
theorem Join_take_ne (cs : List Str) (i : Nat) (hi : i < cs.length) (hne : Join cs ≠ []) :
    Join (cs.take i) ≠ Join cs := by
  cases i with
  | zero =>
    simp only [List.take_zero, Join]
    exact fun h => hne h.symm
  | succ j =>
    have hA : cs.take (j + 1) ≠ [] := by
      intro h
      have := congrArg List.length h
      rw [List.length_take, List.length_nil] at this
      omega
    have hB : cs.drop (j + 1) ≠ [] := by
      intro h
      have := congrArg List.length h
      rw [List.length_drop, List.length_nil] at this
      omega
    intro h
    have e := Join_append _ _ hA hB
    rw [List.take_append_drop] at e
    have := congrArg List.length e
    rw [← h, List.length_append, List.length_cons] at this
    omega

/-- The loop returns at the first index whose leading components join to the
item id. -/
theorem iconPathLoop_found (itemId : Str) (cs : List Str) (k : Nat)
    (hk : Join (cs.take k) = itemId) :
    ∀ (fuel i : Nat), i ≤ k → k < i + fuel →
      (∀ j, i ≤ j → j < k → Join (cs.take j) ≠ itemId) →
      iconPathLoop itemId cs fuel i =
        some (itemId, Join ((cs.take (cs.length - 1)).drop k)) := by
  intro fuel
  induction fuel with
  | zero => intro i h1 h2 _; omega
  | succ fuel ih =>
    intro i h1 h2 hmin
    rw [iconPathLoop]
    by_cases hik : i = k
    · subst hik
      simp [hk]
    · have hlt : i < k := by omega
      rw [if_pos (hmin i (Nat.le_refl _) hlt)]
      exact ih (i + 1) (by omega) (by omega) (fun j hj1 hj2 => hmin j (by omega) hj2)

/-- Whatever the loop returns has the item id as its first part. -/
theorem iconPathLoop_fst (itemId : Str) (cs : List Str) :
    ∀ (fuel i : Nat) (a b : Str), iconPathLoop itemId cs fuel i = some (a, b) → a = itemId := by
  intro fuel
  induction fuel with
  | zero => intro i a b h; simp [iconPathLoop] at h
  | succ fuel ih =>
    intro i a b h
    rw [iconPathLoop] at h
    by_cases hne : Join (cs.take i) ≠ itemId
    · rw [if_pos hne] at h
      exact ih (i + 1) a b h
    · rw [if_neg hne] at h
      simp only [Option.some.injEq, Prod.mk.injEq] at h
      rw [← h.1]
      exact not_not.1 hne

/-- The icon path built from an item id, a paintkit id and a wear suffix is
taken apart into the item id and the paintkit id. -/
theorem iconPath_roundtrip (I P W : Str) (hI : I ≠ []) (hW : '_' ∉ W) :
    getItemPaintkitFromIconPath I (iconPathRoot ++ (I ++ '_' :: (P ++ '_' :: W))) =
      (I, P, none) := by
  have hcomp : Split (I ++ '_' :: (P ++ '_' :: W)) = Split I ++ (Split P ++ [W]) := by
    conv_lhs => rw [← Join_Split I]
    rw [Split_Join_append _ _ (Split_ne_nil I) (Split_pieces I)]
    conv_lhs => rw [← Join_Split P]
    rw [Split_Join_append _ _ (Split_ne_nil P) (Split_pieces P), Split_single W hW]
  have hk : Join ((Split I ++ (Split P ++ [W])).take (Split I).length) = I := by
    rw [List.take_left, Join_Split]
  have hmin : ∀ j, 0 ≤ j → j < (Split I).length →
      Join ((Split I ++ (Split P ++ [W])).take j) ≠ I := by
    intro j _ hj
    rw [List.take_append_of_le_length (Nat.le_of_lt hj)]
    have := Join_take_ne (Split I) j hj (by rw [Join_Split]; exact hI)
    rwa [Join_Split] at this
  have hfound := iconPathLoop_found I (Split I ++ (Split P ++ [W])) (Split I).length hk
    (Split I ++ (Split P ++ [W])).length 0 (Nat.zero_le _)
    (by simp only [List.length_append, List.length_singleton]; omega) hmin
  have hpk : Join (((Split I ++ (Split P ++ [W])).take
      ((Split I ++ (Split P ++ [W])).length - 1)).drop (Split I).length) = P := by
    have e : (Split I ++ (Split P ++ [W])).length - 1 = (Split I ++ Split P).length := by
      simp only [List.length_append, List.length_singleton]
      omega
    rw [e, ← List.append_assoc, List.take_left, List.drop_left, Join_Split]
  unfold getItemPaintkitFromIconPath
  simp only [TrimLeading_append, hcomp, hfound, hpk]

/-- C20. Icon-path round trip: for every non-empty item id `I`, every paintkit
id `P` and every wear suffix `W` without underscore,
`getItemPaintkitFromIconPath(I, "econ/default_generated/" ++ I ++ "_" ++ P ++
"_" ++ W)` returns `(I, P)` with no error; and whenever the function returns
without error for `(itemId, path)`, the first returned value equals `itemId`. -/
theorem icon_path_round_trip :
    (∀ I P W : Str, I ≠ [] → '_' ∉ W →
      getItemPaintkitFromIconPath I (iconPathRoot ++ (I ++ '_' :: (P ++ '_' :: W))) =
        (I, P, none)) ∧
    (∀ itemId path a b : Str,
      getItemPaintkitFromIconPath itemId path = (a, b, none) → a = itemId) := by
  constructor
  · intro I P W hI hW
    exact iconPath_roundtrip I P W hI hW
  · intro itemId path a b h
    unfold getItemPaintkitFromIconPath at h
    dsimp only at h
    cases hl : iconPathLoop itemId (Split (TrimLeading path iconPathRoot))
        (Split (TrimLeading path iconPathRoot)).length 0 with
    | none => rw [hl] at h; simp at h
    | some r =>
      obtain ⟨x, y⟩ := r
      rw [hl] at h
      simp only [Prod.mk.injEq, and_true] at h
      rw [← h.1]
      exact iconPathLoop_fst itemId _ _ 0 x y hl

/-- C20 at the item `weapon_knife_karambit`, the paintkit `aq_damascus_90` and
the suffix `light`. -/
theorem icon_path_round_trip_witness :
    getItemPaintkitFromIconPath "weapon_knife_karambit".toList
        (iconPathRoot ++ ("weapon_knife_karambit".toList ++
          '_' :: ("aq_damascus_90".toList ++ '_' :: "light".toList))) =
      ("weapon_knife_karambit".toList, "aq_damascus_90".toList, none) ∧
    (∀ a b : Str,
      getItemPaintkitFromIconPath "weapon_knife".toList
          "econ/default_generated/weapon_knife_zz_light".toList = (a, b, none) →
        a = "weapon_knife".toList) :=
  ⟨icon_path_round_trip.1 "weapon_knife_karambit".toList "aq_damascus_90".toList
      "light".toList (by decide) (by decide),
    fun a b h => icon_path_round_trip.2 "weapon_knife".toList
      "econ/default_generated/weapon_knife_zz_light".toList a b h⟩

/-! ## Encoding detection -/

/-- A file that starts with the UTF-8 byte-order mark is reported as not UTF-16
and left just after the mark. -/
theorem isUTF16_utf8_bom (rest : List Nat) :
    isUTF16 { bytes := 0xef :: 0xbb :: 0xbf :: rest, pos := 0, broken := false } =
      (false, none, { bytes := 0xef :: 0xbb :: 0xbf :: rest, pos := 3, broken := false }) := by
  simp [isUTF16, File.Read]

/-- A file that does not start with the UTF-8 byte-order mark is left at its
start, whatever the answer. -/
theorem isUTF16_resets (bytes : List Nat) (h : bytes.take 3 ≠ [0xef, 0xbb, 0xbf]) :
    (isUTF16 { bytes := bytes, pos := 0, broken := false }).2.1 = none ∧
    (isUTF16 { bytes := bytes, pos := 0, broken := false }).2.2 =
      { bytes := bytes, pos := 0, broken := false } := by
  match bytes, h with
  | [], _ => simp [isUTF16, File.Read, resetFileStart]
  | [a], _ =>
    simp only [isUTF16, File.Read]
    simp [resetFileStart]
  | [a, b], _ =>
    simp only [isUTF16, File.Read]
    simp [resetFileStart]
    try (split_ifs <;> simp_all)
  | a :: b :: c :: rest, h =>
    have h3 : ¬ (a = 0xef ∧ b = 0xbb ∧ c = 0xbf) := by
      intro ⟨h1, h2, h3⟩
      apply h
      simp [h1, h2, h3]
    simp only [isUTF16, File.Read]
    simp [resetFileStart]
    try (split_ifs <;> simp_all)

/-- C14 as stated fails: for the file with the bytes EF BB BF and `"a"`,
`isUTF16` reports false without error and the position afterwards is 3, not 0. -/
theorem utf8_bom_position_not_restored :
    isUTF16 utf8BomFile =
      (false, none, { bytes := [0xef, 0xbb, 0xbf, 0x22, 0x61, 0x22], pos := 3, broken := false }) ∧
    (isUTF16 utf8BomFile).2.2.pos ≠ 0 := by
  decide

/-- C14, amended. Position restore in encoding detection: for every byte stream
read from its start without an I/O error that does not begin with the UTF-8
byte-order mark EF BB BF (no byte-order mark, an empty stream, or a UTF-16
mark), the stream position after `isUTF16` is the start of the stream (offset
0), also when the stream is reported as UTF-16; a stream that begins with the
UTF-8 byte-order mark is reported as not UTF-16 and is the only one left
elsewhere, at offset 3, just after the mark. -/
theorem isUTF16_position (bytes : List Nat) :
    (bytes.take 3 ≠ [0xef, 0xbb, 0xbf] →
      (isUTF16 { bytes := bytes, pos := 0, broken := false }).2.1 = none ∧
      (isUTF16 { bytes := bytes, pos := 0, broken := false }).2.2 =
        { bytes := bytes, pos := 0, broken := false }) ∧
    (bytes.take 3 = [0xef, 0xbb, 0xbf] →
      isUTF16 { bytes := bytes, pos := 0, broken := false } =
        (false, none, { bytes := bytes, pos := 3, broken := false })) := by
  constructor
  · intro h
    exact isUTF16_resets bytes h
  · intro h
    match bytes, h with
    | a :: b :: c :: rest, h =>
      simp only [List.take_succ_cons, List.take_zero, List.cons.injEq, and_true] at h
      obtain ⟨h1, h2, h3⟩ := h
      subst h1 h2 h3
      exact isUTF16_utf8_bom rest

/-- C14 amended, at an empty file, at a file without mark, and at a file with
the UTF-16 little-endian mark: each is left at offset 0. -/
theorem isUTF16_position_witness :
    ((isUTF16 { bytes := [], pos := 0, broken := false }).2.1 = none ∧
      (isUTF16 { bytes := [], pos := 0, broken := false }).2.2 =
        { bytes := [], pos := 0, broken := false }) ∧
    ((isUTF16 { bytes := [0x22, 0x61, 0x22, 0x0a], pos := 0, broken := false }).2.1 = none ∧
      (isUTF16 { bytes := [0x22, 0x61, 0x22, 0x0a], pos := 0, broken := false }).2.2 =
        { bytes := [0x22, 0x61, 0x22, 0x0a], pos := 0, broken := false }) ∧
    isUTF16 { bytes := [0xff, 0xfe, 0x22, 0x00], pos := 0, broken := false } =
      (true, none, { bytes := [0xff, 0xfe, 0x22, 0x00], pos := 0, broken := false }) :=
  ⟨(isUTF16_position []).1 (by decide),
    (isUTF16_position [0x22, 0x61, 0x22, 0x0a]).1 (by decide), by decide⟩

/-! ## Encoding transparency -/

/-- A file that starts with the UTF-16 little-endian mark is reported as UTF-16
and left at its start. -/
theorem isUTF16_utf16_mark (rest : List Nat) :
    isUTF16 { bytes := 0xff :: 0xfe :: rest, pos := 0, broken := false } =
      (true, none, { bytes := 0xff :: 0xfe :: rest, pos := 0, broken := false }) := by
  cases rest with
  | nil => simp [isUTF16, File.Read, resetFileStart]
  | cons c rest => simp [isUTF16, File.Read, resetFileStart]

/-- A file whose first byte is neither FF nor FE and that does not start with
the UTF-8 mark is reported as not UTF-16 and left at its start. -/
theorem isUTF16_plain (bytes : List Nat) (h1 : bytes.head? ≠ some 0xff)
    (h2 : bytes.head? ≠ some 0xfe) (h3 : bytes.take 3 ≠ [0xef, 0xbb, 0xbf]) :
    isUTF16 { bytes := bytes, pos := 0, broken := false } =
      (false, none, { bytes := bytes, pos := 0, broken := false }) := by
  match bytes, h1, h2, h3 with
  | [], _, _, _ => simp [isUTF16, File.Read, resetFileStart]
  | [a], h1, h2, _ =>
    simp only [List.head?_cons, ne_eq, Option.some.injEq] at h1 h2
    simp [isUTF16, File.Read, resetFileStart, h1, h2]
  | [a, b], h1, h2, _ =>
    simp only [List.head?_cons, ne_eq, Option.some.injEq] at h1 h2
    simp [isUTF16, File.Read, resetFileStart, h1, h2]
  | a :: b :: c :: rest, h1, h2, h3 =>
    simp only [List.head?_cons, ne_eq, Option.some.injEq] at h1 h2
    have h4 : ¬ (a = 0xef ∧ b = 0xbb ∧ c = 0xbf) := by
      intro ⟨e1, e2, e3⟩
      apply h3
      simp [e1, e2, e3]
    simp only [isUTF16, File.Read]
    simp [resetFileStart, h1, h2]
    rw [if_neg h4, if_neg h4]

theorem char_lt (c : Char) : c.val.toNat < 0x110000 := by
  have := c.valid
  simp only [UInt32.isValidChar, Nat.isValidChar] at this
  omega

theorem char_eq_bom (c : Char) (h : c.val.toNat = 0xfeff) : c = '\uFEFF' := by
  apply Char.ext
  apply UInt32.ext
  rw [h]
  rfl

/-- The UTF-8 encoding of a text never starts with FF or FE, and starts with
EF BB BF only when the text starts with U+FEFF. -/
theorem utf8Bytes_start (text : Str) :
    (utf8Bytes text).head? ≠ some 0xff ∧ (utf8Bytes text).head? ≠ some 0xfe ∧
    ((utf8Bytes text).take 3 = [0xef, 0xbb, 0xbf] → text.head? = some '\uFEFF') := by
  cases text with
  | nil => simp [utf8Bytes]
  | cons c rest =>
    have hv := char_lt c
    simp only [utf8Bytes, utf8EncodeChar]
    split_ifs with h1 h2 h3
    · refine ⟨by simp; omega, by simp; omega, ?_⟩
      intro h
      simp only [List.singleton_append] at h
      have : c.val.toNat = 0xef := by
        cases hr : utf8Bytes rest with
        | nil => rw [hr] at h; simp at h
        | cons x xs =>
          rw [hr] at h
          cases xs with
          | nil => simp at h
          | cons y ys => simp at h; exact h.1
      omega
    · refine ⟨by simp; omega, by simp; omega, ?_⟩
      intro h
      simp only [List.cons_append, List.nil_append] at h
      have : 0xc0 + c.val.toNat / 64 = 0xef := by
        cases hr : utf8Bytes rest with
        | nil => rw [hr] at h; simp at h
        | cons x xs => rw [hr] at h; simp at h; exact h.1
      omega
    · refine ⟨by simp; omega, by simp; omega, ?_⟩
      intro h
      simp only [List.cons_append, List.nil_append, List.take_succ_cons, List.take_zero,
        List.cons.injEq, and_true] at h
      have : c.val.toNat = 0xfeff := by omega
      simp [char_eq_bom c this]
    · refine ⟨by simp; omega, by simp; omega, ?_⟩
      intro h
      simp only [List.cons_append, List.nil_append, List.take_succ_cons, List.take_zero,
        List.cons.injEq, and_true] at h
      omega

theorem utf8Bytes_bom (rest : Str) :
    utf8Bytes ('\uFEFF' :: rest) = 0xef :: 0xbb :: 0xbf :: utf8Bytes rest := by
  have : utf8EncodeChar '\uFEFF' = [0xef, 0xbb, 0xbf] := by decide
  simp [utf8Bytes, this]

theorem char_not_surrogate (c : Char) : c.val.toNat < 0xd800 ∨ 0xdfff < c.val.toNat := by
  have := c.valid
  simp only [UInt32.isValidChar, Nat.isValidChar] at this
  omega

theorem char_ofNat_val (c : Char) : Char.ofNat c.val.toNat = c :=
  Char.ofNat_toNat c

/-- The decoding loop gives back the text from its little-endian encoding. -/
theorem utf16Decode_utf16leBytes (text : Str) : utf16Decode false (utf16leBytes text) = text := by
  induction text with
  | nil => rfl
  | cons c rest ih =>
    have hv := char_lt c
    have hs := char_not_surrogate c
    simp only [utf16leBytes, utf16leEncodeChar]
    by_cases h1 : c.val.toNat < 0x10000
    · have hu : utf16Unit false (c.val.toNat % 256) (c.val.toNat / 256) = c.val.toNat := by
        simp only [utf16Unit]
        simp only [Bool.false_eq_true, if_false]
        omega
      have hns : isSurrogate c.val.toNat = false := by
        simp only [isSurrogate, Bool.and_eq_false_imp, decide_eq_true_eq, decide_eq_false_iff_not]
        omega
      simp only [h1, if_true, List.cons_append, List.nil_append]
      rw [utf16Decode.eq_def]
      simp only [hu, hns, Bool.false_eq_true, if_false, ih, char_ofNat_val]
    · have hhi : utf16Unit false ((0xd800 + (c.val.toNat - 0x10000) / 1024) % 256)
          ((0xd800 + (c.val.toNat - 0x10000) / 1024) / 256) =
          0xd800 + (c.val.toNat - 0x10000) / 1024 := by
        simp only [utf16Unit]
        simp only [Bool.false_eq_true, if_false]
        omega
      have hlo : utf16Unit false ((0xdc00 + (c.val.toNat - 0x10000) % 1024) % 256)
          ((0xdc00 + (c.val.toNat - 0x10000) % 1024) / 256) =
          0xdc00 + (c.val.toNat - 0x10000) % 1024 := by
        simp only [utf16Unit]
        simp only [Bool.false_eq_true, if_false]
        omega
      have hsur : isSurrogate (0xd800 + (c.val.toNat - 0x10000) / 1024) = true := by
        simp only [isSurrogate, Bool.and_eq_true, decide_eq_true_eq]
        omega
      have hdec : utf16DecodeRune (0xd800 + (c.val.toNat - 0x10000) / 1024)
          (0xdc00 + (c.val.toNat - 0x10000) % 1024) = c.val.toNat := by
        have hc : 0xd800 ≤ 0xd800 + (c.val.toNat - 0x10000) / 1024 ∧
            0xd800 + (c.val.toNat - 0x10000) / 1024 < 0xdc00 ∧
            0xdc00 ≤ 0xdc00 + (c.val.toNat - 0x10000) % 1024 ∧
            0xdc00 + (c.val.toNat - 0x10000) % 1024 < 0xe000 := by omega
        simp only [utf16DecodeRune, hc, and_self, if_true]
        omega
      have hlow : 0xdc00 ≤ 0xdc00 + (c.val.toNat - 0x10000) % 1024 ∧
          0xdc00 + (c.val.toNat - 0x10000) % 1024 < 0xe000 := by omega
      simp only [h1, if_false, List.cons_append, List.nil_append]
      rw [utf16Decode.eq_def]
      simp only [hhi, hsur, if_true, hlo, hlow, and_self, hdec, ih, char_ofNat_val]

/-- The conversion of `convertFileToUTF8`: the bytes FF FE followed by the
UTF-16 little-endian encoding of a text are turned into the UTF-8 encoding of
that text. -/
theorem convertFileToUTF8_utf16le (text : Str) :
    convertFileToUTF8 (0xff :: 0xfe :: utf16leBytes text) = utf8Bytes text := by
  simp [convertFileToUTF8, utf16Decode_utf16leBytes]

/-- The UTF-16 input is converted and its lines are parsed. -/
theorem ParseFile_utf16 (text : Str) :
    ParseFile { bytes := 0xff :: 0xfe :: utf16leBytes text, pos := 0, broken := false } =
      .parsed (Parse (physicalLines (utf8Bytes text))) := by
  unfold ParseFile
  rw [isUTF16_utf16_mark]
  simp [convertFileToUTF8_utf16le]

/-- The UTF-8 input is scanned from its start, unless it starts with U+FEFF. -/
theorem ParseFile_utf8 (text : Str) (hbom : text.head? ≠ some '\uFEFF') :
    ParseFile { bytes := utf8Bytes text, pos := 0, broken := false } =
      .parsed (Parse (physicalLines (utf8Bytes text))) := by
  obtain ⟨h1, h2, h3⟩ := utf8Bytes_start text
  unfold ParseFile
  rw [isUTF16_plain _ h1 h2 (fun h => hbom (h3 h))]
  simp

/-- The UTF-8 input that starts with U+FEFF is scanned from after it. -/
theorem ParseFile_utf8_bom (rest : Str) :
    ParseFile { bytes := utf8Bytes ('\uFEFF' :: rest), pos := 0, broken := false } =
      .parsed (Parse (physicalLines (utf8Bytes rest))) := by
  unfold ParseFile
  rw [utf8Bytes_bom, isUTF16_utf8_bom]
  simp

/-- C15 as stated fails: for the text U+FEFF `// c`, `"a"`, `{`, `}` the input
FF FE plus its UTF-16 little-endian encoding fails on line 1 (the first line is
U+FEFF followed by the comment, which is not Empty), while its UTF-8 encoding,
which starts with EF BB BF, is read from after these bytes and gives the tree
`a → {}`. -/
theorem bom_text_encodings_differ :
    ParseFile
        { bytes := 0xff :: 0xfe :: utf16leBytes bomCommentText, pos := 0, broken := false } =
      .parsed (.error (.unableToParse 1 "unrecognised line type")) ∧
    ParseFile { bytes := utf8Bytes bomCommentText, pos := 0, broken := false } =
      .parsed (.ok [[(['a'], .map 1)], []]) := by
  decide

/-- C15, amended. Encoding transparency: for every text input that does not
begin with the character U+FEFF, `Parse` applied to the bytes FF FE followed by
the UTF-16 little-endian encoding of the text (which `convertFileToUTF8` turns
into the UTF-8 encoding of the text) returns the same result as `Parse` applied
to the UTF-8 encoding of the same text, namely the result of the line loop on
the physical lines of that encoding.  For a text that begins with U+FEFF the
UTF-16 input is parsed with that character and the UTF-8 input without it. -/
theorem encoding_transparent (text : Str) :
    convertFileToUTF8 (0xff :: 0xfe :: utf16leBytes text) = utf8Bytes text ∧
    ParseFile { bytes := 0xff :: 0xfe :: utf16leBytes text, pos := 0, broken := false } =
      .parsed (Parse (physicalLines (utf8Bytes text))) ∧
    (text.head? ≠ some '\uFEFF' →
      ParseFile { bytes := utf8Bytes text, pos := 0, broken := false } =
        ParseFile { bytes := 0xff :: 0xfe :: utf16leBytes text, pos := 0, broken := false }) ∧
    (∀ rest : Str, text = '\uFEFF' :: rest →
      ParseFile { bytes := utf8Bytes text, pos := 0, broken := false } =
        .parsed (Parse (physicalLines (utf8Bytes rest)))) := by
  have h16 := ParseFile_utf16 text
  refine ⟨convertFileToUTF8_utf16le text, h16, ?_, ?_⟩
  · intro hbom
    rw [h16, ParseFile_utf8 text hbom]
  · intro rest ht
    subst ht
    exact ParseFile_utf8_bom rest

/-- C15 amended, at the spec's scenario: the text `"a"`, `{`, `"b" "c"`, `}`
gives the tree `a → {b: c}` in both encodings. -/
theorem encoding_transparent_witness :
    ParseFile { bytes := utf8Bytes encodingScenarioText, pos := 0, broken := false } =
      ParseFile
        { bytes := 0xff :: 0xfe :: utf16leBytes encodingScenarioText, pos := 0,
          broken := false } ∧
    ParseFile { bytes := utf8Bytes encodingScenarioText, pos := 0, broken := false } =
      .parsed (.ok [[(['a'], .map 1)], [(['b'], .str ['c'])]]) :=
  ⟨(encoding_transparent encodingScenarioText).2.2.1 (by decide), by decide⟩

end CsgoParser
